import Mathlib

/-!
Shallow embedding of `hono-router` (src/index.js): a route-table generator
that walks a directory tree of handler files, derives Hono route paths from
file paths (bracket syntax for dynamic and catch-all segments), detects
exported HTTP-method handlers by text patterns, and emits a sorted router
module.

Modelling conventions:
* Strings are Lean `String`s; character-level work happens on `List Char`.
* JavaScript regular-expression replaces from the source are embedded as
  explicit scanners with the same semantics on the inputs that arise here
  (leftmost match, lazy `(.+?)` capture, `.` not matching line terminators,
  global replacement continuing after the replaced text).
* JS string comparison (`<`/`>`) is modelled by `listLtChar`, code-point
  lexicographic order, which agrees with the UTF-16 code-unit order on all
  characters that appear in route paths (they differ only beyond the basic
  multilingual plane).
* The file system is external to the program; a directory tree is embedded
  as an inductive value whose entry order models `readdirSync` order.
-/

namespace HonoRouter

/-- The apostrophe character used in the generated JavaScript/TypeScript text. -/
def qc : Char := Char.ofNat 39

/-- The apostrophe as a one-character string. -/
def sq : String := String.singleton qc

/-- Whether `c` is matched by an (un-flagged) JavaScript regex `.`:
any character except the four ECMAScript line terminators. -/
def jsDotChar (c : Char) : Bool :=
  !(c = Char.ofNat 10 || c = Char.ofNat 13 || c = Char.ofNat 0x2028 || c = Char.ofNat 0x2029)

/-- Plain capture-name characters (letters, digits, underscore, hyphen);
used to state the well-formed-name hypotheses of the segment theorems. -/
def isNameChar (c : Char) : Bool :=
  c.isAlphanum || c = '_' || c = '-'

/-! ### Lazy-capture regex scanner

`lazyCapTo close s` models matching `(.+?)` followed by the literal `close`
at the start of `s`: it returns the shortest non-empty run of `.`-matching
characters that is immediately followed by `close`. -/

def lazyCapTo (close : List Char) : List Char → Option (List Char)
  | [] => none
  | c :: rest =>
    if jsDotChar c then
      if close.isPrefixOf rest then some [c]
      else
        match lazyCapTo close rest with
        | some cap => some (c :: cap)
        | none => none
    else none

/-- One attempted match of the pattern `openP (.+?) close` at the head of `s`,
returning the rendered replacement and the number of characters consumed. -/
def stepBracket (openP close : List Char) (render : List Char → List Char)
    (s : List Char) : Option (List Char × Nat) :=
  if openP.isPrefixOf s then
    match lazyCapTo close (s.drop openP.length) with
    | some cap => some (render cap, openP.length + cap.length + close.length)
    | none => none
  else none

/-- Fuel-indexed global scan; the fuel only serves structural recursion and
is irrelevant as soon as it dominates the input length. -/
def scanRwAux (step : List Char → Option (List Char × Nat)) : Nat → List Char → List Char
  | _, [] => []
  | 0, s => s
  | f + 1, c :: rest =>
    match step (c :: rest) with
    | some (out, k) => out ++ scanRwAux step f (rest.drop (k - 1))
    | none => c :: scanRwAux step f rest

/-- Global regex replacement: scan left to right, at each position try `step`;
on a match emit the replacement and continue after the consumed text,
otherwise keep the character and move on (the replacement itself is never
rescanned, matching JS `String.replace` with the `g` flag). -/
def scanRw (step : List Char → Option (List Char × Nat)) (s : List Char) : List Char :=
  scanRwAux step s.length s

theorem scanRwAux_nil (step : List Char → Option (List Char × Nat)) (f : Nat) :
    scanRwAux step f [] = [] := by
  cases f <;> rfl

/-- The fuel is irrelevant once it covers the input length. -/
theorem scanRwAux_fuel (step : List Char → Option (List Char × Nat)) :
    ∀ (f : Nat) (s : List Char), s.length ≤ f → scanRwAux step f s = scanRw step s := by
  intro f
  induction f using Nat.strong_induction_on with
  | _ f ih =>
    intro s hs
    cases s with
    | nil => rw [scanRwAux_nil, scanRw, scanRwAux_nil]
    | cons c rest =>
      cases f with
      | zero => simp at hs
      | succ f =>
        show _ = scanRwAux step ((c :: rest).length) (c :: rest)
        simp only [List.length_cons, scanRwAux]
        cases hstep : step (c :: rest) with
        | some p =>
          obtain ⟨out, k⟩ := p
          dsimp only
          simp only [List.length_cons] at hs
          have hd : (rest.drop (k - 1)).length ≤ f := by
            simp only [List.length_drop]
            omega
          have hd' : (rest.drop (k - 1)).length ≤ rest.length := by
            simp [List.length_drop]
          rw [ih f (by omega) _ hd, ih rest.length (by omega) _ hd']
        | none =>
          dsimp only
          have h1 : rest.length ≤ f := by simp only [List.length_cons] at hs; omega
          rw [ih f (by omega) rest h1, ih rest.length (by omega) rest (le_refl _)]

/-- The defining equation of `scanRw` on a non-empty input. -/
theorem scanRw_cons (step : List Char → Option (List Char × Nat)) (c : Char)
    (rest : List Char) :
    scanRw step (c :: rest) =
      match step (c :: rest) with
      | some (out, k) => out ++ scanRw step (rest.drop (k - 1))
      | none => c :: scanRw step rest := by
  show scanRwAux step (rest.length + 1) (c :: rest) = _
  simp only [scanRwAux]
  cases hstep : step (c :: rest) with
  | some p =>
    obtain ⟨out, k⟩ := p
    dsimp only
    rw [scanRwAux_fuel step rest.length _ (by simp [List.length_drop])]
  | none =>
    dsimp only
    rw [scanRwAux_fuel step rest.length rest (le_refl _)]

/-! ### The four bracket rewrites of `generateRoutes`

Route-path renderings (`:$1{.*}`, `:$1{.+}`, `:$1`) and the bare-name
rendering (`$1`) used by `safeName`. -/

def renderStar (cap : List Char) : List Char := ':' :: cap ++ ("\x7b.*\x7d".toList)

def renderPlus (cap : List Char) : List Char := ':' :: cap ++ ("\x7b.+\x7d".toList)

def renderColon (cap : List Char) : List Char := ':' :: cap

def renderBare (cap : List Char) : List Char := cap

/-- The rewrite step of `/\[\[\.\.\.(.+?)\]\]/g`. -/
def stepSpread2 (render : List Char → List Char) : List Char → Option (List Char × Nat) :=
  stepBracket ['[', '[', '.', '.', '.'] [']', ']'] render

/-- The rewrite step of `/\[\.\.\.(.+?)\]/g`. -/
def stepSpread1 (render : List Char → List Char) : List Char → Option (List Char × Nat) :=
  stepBracket ['[', '.', '.', '.'] [']'] render

/-- The rewrite step of `/\[\[(.+?)\]\]/g`. -/
def stepOpt2 (render : List Char → List Char) : List Char → Option (List Char × Nat) :=
  stepBracket ['[', '['] [']', ']'] render

/-- The rewrite step of `/\[(.+?)\]/g`. -/
def stepOpt1 (render : List Char → List Char) : List Char → Option (List Char × Nat) :=
  stepBracket ['['] [']'] render

/-- The ordered chain of the four bracket rewrites, parametrized by the
replacement renderings of the four rules. -/
def bracketChain (r1 r2 r3 r4 : List Char → List Char) (l : List Char) : List Char :=
  scanRw (stepOpt1 r4)
    (scanRw (stepOpt2 r3)
      (scanRw (stepSpread1 r2)
        (scanRw (stepSpread2 r1) l)))

/-- The ordered chain of the four bracket rewrites, with the route-path
renderings (lines 114–117 of src/index.js). -/
def bracketRoute (l : List Char) : List Char :=
  bracketChain renderStar renderStar renderPlus renderColon l

/-- The ordered chain of the four bracket rewrites, with the bare-name
renderings (lines 102–105 of src/index.js, inside `safeName`). -/
def bracketBare (l : List Char) : List Char :=
  bracketChain renderBare renderBare renderBare renderBare l

/-! ### Suffix-anchored replaces -/

/-- Model of `s.replace(/suf$/, '')` for a literal suffix `suf`: drop it when present. -/
def dropIfSuffix (suf l : List Char) : List Char :=
  if suf.isSuffixOf l then l.take (l.length - suf.length) else l

/-- Model of `.replace(/index$/, '')`. -/
def stripIndexEnd (l : List Char) : List Char := dropIfSuffix ("index".toList) l

/-- Model of `.replace(/\/$/, '')`. -/
def stripSlashEnd (l : List Char) : List Char := dropIfSuffix ("/".toList) l

/-- Model of `.replace(/\.(ts|tsx)$/, '')`: a match must end at the end of the string,
so this is equivalent to dropping a literal `.tsx` or `.ts` suffix. -/
def stripExt (l : List Char) : List Char :=
  if (".tsx".toList).isSuffixOf l then dropIfSuffix (".tsx".toList) l
  else dropIfSuffix (".ts".toList) l

/-- The route path derived from an import path (lines 112–118 of
src/index.js): strip a trailing `index`, apply the four bracket rewrites,
strip a trailing slash. -/
def routePathOf (importPath : String) : String :=
  String.mk (stripSlashEnd (bracketRoute (stripIndexEnd importPath.toList)))

/-- The bracket-rewrite part of the route-path transformation, applied to a
single path segment (the segment-level view of lines 114–117). -/
def segTransform (seg : String) : String :=
  String.mk (bracketRoute seg.toList)

/-- Model of `safeName` (lines 98–105 of src/index.js): replace `@`, `/`, `\` with
underscore, strip leading underscores, replace hyphens with underscore,
then strip the four bracket wrappings to the bare captured name — in that
order. -/
def safeNameOf (importPath : String) : String :=
  String.mk
    (bracketBare
      (List.map (fun c => if c = '-' then '_' else c)
        (List.dropWhile (fun c => c = '_')
          (List.map (fun c => if c = '@' || c = '/' || c = '\\' then '_' else c)
            importPath.toList))))

/-! ### Handler detection (`getExportedMethods`, lines 30–52) -/

/-- Substring search: does `pat` occur anywhere in `s`? -/
def listContains (pat : List Char) : List Char → Bool
  | [] => pat.isPrefixOf []
  | c :: rest => pat.isPrefixOf (c :: rest) || listContains pat rest

/-- Model of `fileContent.includes(pat)` on strings. -/
def containsS (s pat : String) : Bool := listContains pat.toList s.toList

/-- Matching `sub` after a run of `.`-matching characters: models the
`.*sub` tail of the factory regex anchored at the current position. -/
def scanNoNl (sub : List Char) : List Char → Bool
  | [] => sub.isPrefixOf []
  | c :: rest =>
    if sub.isPrefixOf (c :: rest) then true
    else if jsDotChar c then scanNoNl sub rest else false

/-- Matching the regex `head.*sub` anywhere in the string (the `.`s may not
cross a line terminator). -/
def scanHeadNl (head sub : List Char) : List Char → Bool
  | [] => head.isPrefixOf [] && scanNoNl sub []
  | c :: rest =>
    (head.isPrefixOf (c :: rest) && scanNoNl sub ((c :: rest).drop head.length))
      || scanHeadNl head sub rest

/-- The factory test `new RegExp(`export const ${method} = .*createHandlers`)`
(line 41): the helper name must follow `export const <method> = ` with no
line terminator in between. -/
def factoryMatches (method content : String) : Bool :=
  scanHeadNl (("export const " ++ method ++ " = ").toList) ("createHandlers".toList)
    content.toList

/-- The fixed recognized HTTP-method export identifiers, in declaration
order (lines 31–37). -/
def methodsList : List String :=
  ["onRequestGet", "onRequestPut", "onRequestPost", "onRequestDelete", "onRequestPatch"]

/-- Model of `getExportedMethods` (lines 30–52): for each recognized method, classify
as factory when the factory regex matches, else as direct when the file
contains `export const <method>`, else absent. -/
def getExportedMethods (content : String) : List (String × Bool) :=
  methodsList.flatMap fun m =>
    if factoryMatches m content then [(m, true)]
    else if containsS content ("export const " ++ m) then [(m, false)]
    else []

/-! ### Capitalization filter (`isCapitalized`, lines 59–62) -/

/-- The test `isCapitalized` parametrized by the case mappings used by
`toUpperCase`/`toLowerCase` on the one-character string `str[0]`:
`letter === letter.toUpperCase() && letter !== letter.toLowerCase()`. -/
def isCapitalizedWith (up low : Char → String) : List Char → Bool
  | [] => false
  | c :: _ => (up c = String.singleton c) && !(low c = String.singleton c)

/-- The test `isCapitalized` with ASCII case mappings (ECMAScript `toUpperCase` /
`toLowerCase` agree with these on all ASCII characters). -/
def isCapitalized (s : String) : Bool :=
  isCapitalizedWith (fun c => String.singleton c.toUpper)
    (fun c => String.singleton c.toLower) s.toList

/-- The candidate-file test of the tree walker (lines 90–94): not
capitalized, and a `.ts` or `.tsx` extension. -/
def candidateName (name : String) : Bool :=
  !(isCapitalized name)
    && ((".ts".toList).isSuffixOf name.toList || (".tsx".toList).isSuffixOf name.toList)

/-! ### The route ordering (`sortPaths`, lines 145–176) -/

/-- Model of `s.split('/')` on the character list: JavaScript `String.split` with a
one-character separator (an empty string yields `[""]`). -/
def splitChar (sep : Char) : List Char → List (List Char)
  | [] => [[]]
  | c :: rest =>
    match splitChar sep rest with
    | [] => [[]]
    | h :: t => if c = sep then [] :: h :: t else (c :: h) :: t

/-- Model of `s.split('/')`. -/
def splitSlash (s : String) : List String :=
  (splitChar '/' s.toList).map String.mk

/-- Model of `Array.prototype.join(sep)` and `path` joining on string lists. -/
def joinSep (sep : List Char) : List (List Char) → List Char
  | [] => []
  | [x] => x
  | x :: y :: t => x ++ sep ++ joinSep sep (y :: t)

/-- String-level separator join. -/
def interS (sep : String) (l : List String) : String :=
  String.mk (joinSep sep.toList (l.map String.toList))

/-- Model of `part.startsWith(':')`. -/
def isParamSeg (s : String) : Bool := (":".toList).isPrefixOf s.toList

/-- Model of `part.includes('{.+}') || part.includes('{.*}')`, guarded by the
parameter test (lines 158–159). -/
def isGreedySeg (s : String) : Bool :=
  isParamSeg s && (containsS s "\x7b.+\x7d" || containsS s "\x7b.*\x7d")

/-- Lexicographic comparison of character lists: the model of the
JavaScript string relational operators used on line 172–173. -/
def listLtChar : List Char → List Char → Bool
  | [], [] => false
  | [], _ :: _ => true
  | _ :: _, [] => false
  | a :: as, b :: bs => if a < b then true else if b < a then false else listLtChar as bs

/-- JS `a < b` on strings (code-unit lexicographic). -/
def strLt (a b : String) : Bool := listLtChar a.toList b.toList

/-- The body of the `sortPaths` loop for two differing parts: static before
parametric, bounded parametric before greedy, otherwise lexicographic. -/
def cmpSegNe (a b : String) : Int :=
  if !(isParamSeg a) && isParamSeg b then -1
  else if isParamSeg a && !(isParamSeg b) then 1
  else if isParamSeg a && isParamSeg b && !(isGreedySeg a) && isGreedySeg b then -1
  else if isParamSeg a && isParamSeg b && isGreedySeg a && !(isGreedySeg b) then 1
  else if strLt b a then 1
  else if strLt a b then -1
  else 0

/-- The tail of the `sortPaths` loop once the first list is exhausted:
every remaining position compares the empty string against the present
segment. -/
def cmpPadR : List String → Int
  | [] => 0
  | b :: bs => if "" = b then cmpPadR bs else cmpSegNe "" b

/-- The tail of the `sortPaths` loop once the second list is exhausted. -/
def cmpPadL : List String → Int
  | [] => 0
  | a :: as => if a = "" then cmpPadL as else cmpSegNe a ""

/-- The `sortPaths` loop over the two segment lists: positions run to the
longer list, missing trailing positions read as the empty string, equal
parts continue, the first differing pair decides. -/
def cmpParts : List String → List String → Int
  | [], bs => cmpPadR bs
  | a :: as, [] => if a = "" then cmpPadL as else cmpSegNe a ""
  | a :: as, b :: bs => if a = b then cmpParts as bs else cmpSegNe a b

/-- Model of `sortPaths(a, b)` (lines 145–176): compare the `/`-split segment lists. -/
def sortPaths (a b : String) : Int :=
  cmpParts (splitSlash a) (splitSlash b)

/-- The comparator-rank of one segment: 0 static, 1 bounded parameter,
2 greedy parameter. Together with the segment text it is the sort key
realized by `cmpSegNe`. -/
def segRank (s : String) : Nat :=
  if isParamSeg s then (if isGreedySeg s then 2 else 1) else 0

/-! ### Stable sort

`Array.prototype.sort` is required to be stable; with the consistent
comparator `sortPaths` its result is the stable ascending reordering,
which insertion sort from the left realizes. -/

/-- Insert `x` (originally earlier than everything in `s`) in front of the
first element it does not rank strictly after. -/
def insSorted (cmp : α → α → Int) (x : α) : List α → List α
  | [] => [x]
  | y :: ys => if cmp x y ≤ 0 then x :: y :: ys else y :: insSorted cmp x ys

/-- Stable comparator sort. -/
def sortByCmp (cmp : α → α → Int) (l : List α) : List α :=
  l.foldr (insSorted cmp) []

/-! ### The tree walker and module emitter (`generateRoutes`, lines 69–200)

The file system is an external collaborator; a scanned tree is embedded as
a value whose entry order is `readdirSync` order. Path arithmetic
(`path.posix.join`, `dirname`, `relative`) is modelled for the normalized
relative paths that arise here. -/

/-- One directory entry: a regular file with its text, or a directory. -/
inductive FSTree where
  | file (name : String) (content : String) : FSTree
  | dir (name : String) (entries : List FSTree) : FSTree
deriving Repr

/-- Model of `path.posix.join` of a base path and one plain entry name. -/
def pjoin (b n : String) : String :=
  if n = "" then b else if b = "" then n else b ++ "/" ++ n

/-- Model of `path.posix.dirname` for relative paths: everything before the last
slash, or `.` when there is none. -/
def posixDirname (p : String) : String :=
  let parts := splitSlash p
  if parts.length ≤ 1 then "." else interS "/" parts.dropLast

/-- The `/`-segments of a normalized relative path (dropping empty and `.`
components). -/
def pathSegs (s : String) : List String :=
  (splitSlash s).filter fun x => x ≠ "" && x ≠ "."

/-- Drop the longest common prefix of two segment lists. -/
def dropCommon : List String → List String → List String × List String
  | a :: as, b :: bs => if a = b then dropCommon as bs else (a :: as, b :: bs)
  | as, bs => (as, bs)

/-- Model of `path.posix.relative` on normalized relative paths resolved against one
common working directory. -/
def posixRelative (fromP toP : String) : String :=
  let p := dropCommon (pathSegs fromP) (pathSegs toP)
  interS "/" (p.1.map (fun _ => "..") ++ p.2)

/-- Model of `.replace(/\\/g, '/')`. -/
def slashify (s : String) : String :=
  String.mk (s.toList.map fun c => if c = '\\' then '/' else c)

/-- One generated import statement (line 110). -/
def importLine (aliasName rel : String) : String :=
  "import * as " ++ aliasName ++ " from " ++ sq ++ "./" ++ rel ++ sq ++ ";"

/-- Everything after the first apostrophe. -/
def afterQuote : List Char → List Char
  | [] => []
  | c :: r => if c = qc then r else afterQuote r

/-- Model of `line.match(/'(.*)'/)[1]`: the text between the first and the last
apostrophe of the line (greedy `.*`). -/
def extractQuoted (s : String) : String :=
  String.mk ((afterQuote (afterQuote s.toList).reverse).reverse)

/-- Deleting the first occurrence of `pat` (the JS non-global
`String.replace` with an empty replacement). -/
def deleteOnce (pat : List Char) : List Char → List Char
  | [] => []
  | c :: rest =>
    if pat.isPrefixOf (c :: rest) then (c :: rest).drop pat.length
    else c :: deleteOnce pat rest

/-- Model of `method.replace('onRequest', '').toLowerCase()` (line 119). -/
def methodLower (m : String) : String :=
  String.mk ((deleteOnce ("onRequest".toList) m.toList).map Char.toLower)

/-- One discovered route (the `Route` typedef, lines 17–23). -/
structure Route where
  method : String
  path : String
  handler : String
  isFactory : Bool
deriving Repr, DecidableEq

/-- The per-file body of `traverseDirectories` (lines 90–132), for a
candidate file whose detected export list is non-empty: one import line and
one route per detected method. -/
def fileOutputs (dirT out : String) (deno : Bool) (basePath name content : String) :
    List String × List Route :=
  let importPath := stripExt ((pjoin basePath name).toList)
  let importPathS := String.mk importPath
  if candidateName name then
    let ems := getExportedMethods content
    if ems.isEmpty then ([], [])
    else
      let sn := safeNameOf importPathS
      let ips := if deno then pjoin basePath name else String.mk (stripIndexEnd importPath)
      let rel := slashify (posixRelative (posixDirname out) (pjoin dirT ips))
      ([importLine sn rel],
        ems.map fun e =>
          { method := methodLower e.1
            path := "/" ++ routePathOf importPathS
            handler := sn ++ "." ++ e.1
            isFactory := e.2 })
  else ([], [])

mutual

/-- Model of `traverseDirectories` on one entry, accumulating in entry order. -/
def traverseT (dirT out : String) (deno : Bool) : FSTree → String → List String × List Route
  | FSTree.file name content, basePath => fileOutputs dirT out deno basePath name content
  | FSTree.dir name entries, basePath =>
      traverseL dirT out deno entries (String.mk (stripExt ((pjoin basePath name).toList)))

/-- Model of `traverseDirectories` over a list of sibling entries. -/
def traverseL (dirT out : String) (deno : Bool) : List FSTree → String → List String × List Route
  | [], _ => ([], [])
  | e :: es, basePath =>
      let p := traverseT dirT out deno e basePath
      let q := traverseL dirT out deno es basePath
      (p.1 ++ q.1, p.2 ++ q.2)

end

/-- The comparator applied to import lines (line 179). -/
def importCmp (a b : String) : Int := sortPaths (extractQuoted a) (extractQuoted b)

/-- The comparator applied to routes (line 181). -/
def routeCmp (a b : Route) : Int := sortPaths a.path b.path

/-- One registration statement (lines 183–187). -/
def routeStatement (r : Route) : String :=
  if r.isFactory then
    "app." ++ r.method ++ "(" ++ sq ++ r.path ++ sq ++ ", ..." ++ r.handler ++ ");"
  else
    "app." ++ r.method ++ "(" ++ sq ++ r.path ++ sq ++ ", " ++ r.handler ++ ");"

/-- The full text written by one generation pass (`generateRoutes`, lines
69–200): walk the tree, sort both lists, render the fixed template. -/
def generateOutput (dirT out : String) (deno : Bool) (tree : List FSTree) : String :=
  let acc := traverseL dirT out deno tree ""
  let importsSorted := sortByCmp importCmp acc.1
  let routesSorted := sortByCmp routeCmp acc.2
  "\nimport \x7b Hono, Env \x7d from " ++ sq ++ "hono" ++ sq ++ ";\n\n"
    ++ interS "\n" importsSorted
    ++ "\n\nexport const loadRoutes = <T extends Env>(app: Hono<T>) => \x7b\n\t"
    ++ interS "\n\t" (routesSorted.map routeStatement)
    ++ "\n\x7d;"

/-! ### Scanner lemmas -/

theorem isNameChar_ne {c : Char} (h : isNameChar c = true) {d : Char}
    (hd : isNameChar d = false) : c ≠ d := by
  intro he
  rw [he, hd] at h
  exact Bool.noConfusion h

theorem jsDot_of_name {c : Char} (h : isNameChar c = true) : jsDotChar c = true := by
  have h10 : c ≠ Char.ofNat 10 := isNameChar_ne h (by decide)
  have h13 : c ≠ Char.ofNat 13 := isNameChar_ne h (by decide)
  have h28 : c ≠ Char.ofNat 0x2028 := isNameChar_ne h (by decide)
  have h29 : c ≠ Char.ofNat 0x2029 := isNameChar_ne h (by decide)
  simp only [jsDotChar, Bool.not_eq_true', Bool.or_eq_false_iff, decide_eq_false_iff_not]
  exact ⟨⟨⟨h10, h13⟩, h28⟩, h29⟩

theorem scanRw_cons_none {step : List Char → Option (List Char × Nat)} {c : Char}
    {r : List Char} (h : step (c :: r) = none) :
    scanRw step (c :: r) = c :: scanRw step r := by
  rw [scanRw_cons, h]

theorem scanRw_cons_some {step : List Char → Option (List Char × Nat)} {c : Char}
    {r out : List Char} {k : Nat} (h : step (c :: r) = some (out, k)) :
    scanRw step (c :: r) = out ++ scanRw step (r.drop (k - 1)) := by
  rw [scanRw_cons, h]

/-- A whole-string match: when `step` consumes the entire rest, the result
is exactly the replacement. -/
theorem scanRw_all {step : List Char → Option (List Char × Nat)} {c : Char}
    {r out : List Char} (h : step (c :: r) = some (out, r.length + 1)) :
    scanRw step (c :: r) = out := by
  rw [scanRw_cons_some h]
  simp only [Nat.add_sub_cancel, List.drop_length]
  simp [scanRw, scanRwAux]

/-- The bracket steps only fire on a leading `[`. -/
theorem stepBracket_none_of_ne {os close : List Char} {render : List Char → List Char}
    {c : Char} {r : List Char} (h : c ≠ '[') :
    stepBracket ('[' :: os) close render (c :: r) = none := by
  simp [stepBracket, List.isPrefixOf, Ne.symm h]

/-- A bracket-free string is left unchanged by a bracket rewrite. -/
theorem scanRw_no_lb {os close : List Char} {render : List Char → List Char} :
    ∀ {s : List Char}, (∀ c ∈ s, c ≠ '[') →
      scanRw (stepBracket ('[' :: os) close render) s = s
  | [], _ => rfl
  | c :: r, h => by
    rw [scanRw_cons_none (stepBracket_none_of_ne (h c (by simp)))]
    rw [scanRw_no_lb fun d hd => h d (by simp [hd])]

/-- Lazy `(.+?)` capture of a run of name characters followed by a
`]`-headed closing literal. -/
theorem lazyCapTo_name {close : List Char} (cs : List Char)
    (hcl : close = ']' :: cs) :
    ∀ {x : List Char} (t : List Char), x ≠ [] → (∀ c ∈ x, isNameChar c = true) →
      lazyCapTo close (x ++ close ++ t) = some x
  | [], _, hx, _ => absurd rfl hx
  | [c], t, _, hn => by
    have hd := jsDot_of_name (hn c (by simp))
    have hpre : close.isPrefixOf (close ++ t) = true := by
      rw [List.isPrefixOf_iff_prefix]; exact List.prefix_append ..
    simp [lazyCapTo, hd, hpre]
  | c :: d :: x, t, _, hn => by
    have hd := jsDot_of_name (hn c (by simp))
    have hdname : isNameChar d = true := hn d (by simp)
    have hnot : ¬ close <+: (d :: (x ++ close ++ t)) := by
      rintro ⟨u, hu⟩
      rw [hcl] at hu
      injection hu with h1 _
      exact (isNameChar_ne hdname (by decide) : d ≠ ']') h1.symm
    have ih := lazyCapTo_name cs hcl (x := d :: x) t (by simp) fun e he => hn e (by simp [he])
    have heq : (c :: d :: x) ++ close ++ t = c :: d :: (x ++ close ++ t) := by simp
    rw [heq, lazyCapTo, if_pos hd,
      if_neg (fun hh => hnot (List.isPrefixOf_iff_prefix.mp hh))]
    have ih' : lazyCapTo close (d :: (x ++ close ++ t)) = some (d :: x) := by simpa using ih
    rw [ih']

/-- A bracket step matching a whole well-formed wrapped segment. -/
theorem stepBracket_match (openP close : List Char) (render : List Char → List Char)
    {x : List Char} (hx : x ≠ []) (hn : ∀ c ∈ x, isNameChar c = true)
    {cs : List Char} (hcl : close = ']' :: cs) :
    stepBracket openP close render (openP ++ x ++ close) =
      some (render x, openP.length + x.length + close.length) := by
  have hpre : openP.isPrefixOf (openP ++ x ++ close) = true := by
    rw [List.isPrefixOf_iff_prefix, List.append_assoc]
    exact List.prefix_append openP (x ++ close)
  have hdrop : (openP ++ x ++ close).drop openP.length = x ++ close := by
    rw [List.append_assoc]
    exact List.drop_left ..
  have hcap : lazyCapTo close (x ++ close) = some x := by
    have := lazyCapTo_name cs hcl (x := x) [] hx hn
    simpa using this
  simp [stepBracket, hpre, hdrop, hcap]

/-- Full-string replacement. -/
theorem scanRw_full {step : List Char → Option (List Char × Nat)} {s out : List Char}
    (hs : s ≠ []) (h : step s = some (out, s.length)) : scanRw step s = out := by
  cases s with
  | nil => exact absurd rfl hs
  | cons c r => exact scanRw_all (by simpa using h)

theorem name_no_lb {x : List Char} (hn : ∀ c ∈ x, isNameChar c = true) :
    ∀ c ∈ x, c ≠ '[' :=
  fun c hc => isNameChar_ne (hn c hc) (by decide)

theorem star_tail_no_lb {c : Char} (h : c ∈ ("\x7b.*\x7d".toList)) : c ≠ '[' := by
  have he : ("\x7b.*\x7d".toList) = ['\x7b', '.', '*', '\x7d'] := rfl
  rw [he] at h
  simp only [List.mem_cons, List.not_mem_nil, or_false] at h
  rcases h with rfl | rfl | rfl | rfl <;> decide

theorem plus_tail_no_lb {c : Char} (h : c ∈ ("\x7b.+\x7d".toList)) : c ≠ '[' := by
  have he : ("\x7b.+\x7d".toList) = ['\x7b', '.', '+', '\x7d'] := rfl
  rw [he] at h
  simp only [List.mem_cons, List.not_mem_nil, or_false] at h
  rcases h with rfl | rfl | rfl | rfl <;> decide

theorem renderStar_no_lb {x : List Char} (hn : ∀ c ∈ x, isNameChar c = true) :
    ∀ c ∈ renderStar x, c ≠ '[' := by
  intro c hc
  simp only [renderStar, List.mem_cons, List.mem_append] at hc
  rcases hc with (h | h) | h
  · subst h; decide
  · exact name_no_lb hn c h
  · exact star_tail_no_lb h

theorem renderPlus_no_lb {x : List Char} (hn : ∀ c ∈ x, isNameChar c = true) :
    ∀ c ∈ renderPlus x, c ≠ '[' := by
  intro c hc
  simp only [renderPlus, List.mem_cons, List.mem_append] at hc
  rcases hc with (h | h) | h
  · subst h; decide
  · exact name_no_lb hn c h
  · exact plus_tail_no_lb h

theorem renderColon_no_lb {x : List Char} (hn : ∀ c ∈ x, isNameChar c = true) :
    ∀ c ∈ renderColon x, c ≠ '[' := by
  intro c hc
  simp only [renderColon, List.mem_cons] at hc
  rcases hc with h | h
  · subst h; decide
  · exact name_no_lb hn c h

/-- A scan step of each of the four rules applied where the whole remaining
text is one well-formed wrapped name. -/
theorem scan_match_spread2 {r : List Char → List Char} {x : List Char} (hx : x ≠ [])
    (hn : ∀ c ∈ x, isNameChar c = true) :
    scanRw (stepSpread2 r) (['[', '[', '.', '.', '.'] ++ x ++ [']', ']']) = r x := by
  refine scanRw_full (by simp) ?_
  have h := stepBracket_match ['[', '[', '.', '.', '.'] [']', ']'] r hx hn rfl
  rw [stepSpread2, h]
  congr 2
  simp [List.length_append]
  omega

theorem scan_match_spread1 {r : List Char → List Char} {x : List Char} (hx : x ≠ [])
    (hn : ∀ c ∈ x, isNameChar c = true) :
    scanRw (stepSpread1 r) (['[', '.', '.', '.'] ++ x ++ [']']) = r x := by
  refine scanRw_full (by simp) ?_
  have h := stepBracket_match ['[', '.', '.', '.'] [']'] r hx hn rfl
  rw [stepSpread1, h]
  congr 2
  simp [List.length_append]
  omega

theorem scan_match_opt2 {r : List Char → List Char} {x : List Char} (hx : x ≠ [])
    (hn : ∀ c ∈ x, isNameChar c = true) :
    scanRw (stepOpt2 r) (['[', '['] ++ x ++ [']', ']']) = r x := by
  refine scanRw_full (by simp) ?_
  have h := stepBracket_match ['[', '['] [']', ']'] r hx hn rfl
  rw [stepOpt2, h]
  congr 2
  simp [List.length_append]
  omega

theorem scan_match_opt1 {r : List Char → List Char} {x : List Char} (hx : x ≠ [])
    (hn : ∀ c ∈ x, isNameChar c = true) :
    scanRw (stepOpt1 r) (['['] ++ x ++ [']']) = r x := by
  refine scanRw_full (by simp) ?_
  have h := stepBracket_match ['['] [']'] r hx hn rfl
  rw [stepOpt1, h]
  congr 2
  simp [List.length_append]
  omega

theorem stepBracket_none_of_not_prefix {openP close : List Char}
    {render : List Char → List Char} {s : List Char}
    (h : openP.isPrefixOf s = false) : stepBracket openP close render s = none := by
  simp [stepBracket, h]

theorem scan_no_lb_s2 {r : List Char → List Char} {s : List Char}
    (h : ∀ c ∈ s, c ≠ '[') : scanRw (stepSpread2 r) s = s := scanRw_no_lb h

theorem scan_no_lb_s1 {r : List Char → List Char} {s : List Char}
    (h : ∀ c ∈ s, c ≠ '[') : scanRw (stepSpread1 r) s = s := scanRw_no_lb h

theorem scan_no_lb_o2 {r : List Char → List Char} {s : List Char}
    (h : ∀ c ∈ s, c ≠ '[') : scanRw (stepOpt2 r) s = s := scanRw_no_lb h

theorem scan_no_lb_o1 {r : List Char → List Char} {s : List Char}
    (h : ∀ c ∈ s, c ≠ '[') : scanRw (stepOpt1 r) s = s := scanRw_no_lb h

/-- A bracket-free string passes the whole rewrite chain unchanged. -/
theorem chain_no_lb {r1 r2 r3 r4 : List Char → List Char} {s : List Char}
    (h : ∀ c ∈ s, c ≠ '[') : bracketChain r1 r2 r3 r4 s = s := by
  unfold bracketChain
  rw [scan_no_lb_s2 h, scan_no_lb_s1 h, scan_no_lb_o2 h, scan_no_lb_o1 h]

theorem chain_spread2 {r1 r2 r3 r4 : List Char → List Char} {x : List Char}
    (hx : x ≠ []) (hn : ∀ c ∈ x, isNameChar c = true) (h1 : ∀ c ∈ r1 x, c ≠ '[') :
    bracketChain r1 r2 r3 r4 (['[', '[', '.', '.', '.'] ++ x ++ [']', ']']) = r1 x := by
  unfold bracketChain
  rw [scan_match_spread2 hx hn, scan_no_lb_s1 h1, scan_no_lb_o2 h1, scan_no_lb_o1 h1]

theorem chain_spread1 {r1 r2 r3 r4 : List Char → List Char} {x : List Char}
    (hx : x ≠ []) (hn : ∀ c ∈ x, isNameChar c = true) (h2 : ∀ c ∈ r2 x, c ≠ '[') :
    bracketChain r1 r2 r3 r4 (['[', '.', '.', '.'] ++ x ++ [']']) = r2 x := by
  have htail : ∀ c ∈ ('.' :: '.' :: '.' :: (x ++ [']'])), c ≠ '[' := by
    intro c hc
    simp only [List.mem_cons, List.mem_append, List.not_mem_nil, or_false] at hc
    rcases hc with rfl | rfl | rfl | h | rfl
    · decide
    · decide
    · decide
    · exact name_no_lb hn c h
    · decide
  have hs1 : stepSpread2 r1 ('[' :: ('.' :: '.' :: '.' :: (x ++ [']']))) = none :=
    stepBracket_none_of_not_prefix (by rfl)
  have e1 : scanRw (stepSpread2 r1) (['[', '.', '.', '.'] ++ x ++ [']']) =
      ['[', '.', '.', '.'] ++ x ++ [']'] := by
    show scanRw (stepSpread2 r1) ('[' :: ('.' :: '.' :: '.' :: (x ++ [']']))) = _
    rw [scanRw_cons_none hs1, scan_no_lb_s2 htail]
    rfl
  unfold bracketChain
  rw [e1, scan_match_spread1 hx hn, scan_no_lb_o2 h2, scan_no_lb_o1 h2]

theorem chain_opt2 {r1 r2 r3 r4 : List Char → List Char} {x : List Char}
    (hx : x ≠ []) (hn : ∀ c ∈ x, isNameChar c = true) (h3 : ∀ c ∈ r3 x, c ≠ '[') :
    bracketChain r1 r2 r3 r4 (['[', '['] ++ x ++ [']', ']']) = r3 x := by
  obtain ⟨c, x', rfl⟩ : ∃ c x', x = c :: x' := by
    cases x with
    | nil => exact absurd rfl hx
    | cons c x' => exact ⟨c, x', rfl⟩
  have hcname := hn c (by simp)
  have hcd : ('.' == c) = false := by
    simpa using (isNameChar_ne hcname (by decide) : c ≠ '.').symm
  have hcb : ('[' == c) = false := by
    simpa using (isNameChar_ne hcname (by decide) : c ≠ '[').symm
  have htail : ∀ d ∈ (c :: (x' ++ [']', ']'])), d ≠ '[' := by
    intro d hd
    simp only [List.mem_cons, List.mem_append, List.not_mem_nil, or_false] at hd
    rcases hd with rfl | h | rfl | rfl
    · exact isNameChar_ne hcname (by decide)
    · exact name_no_lb (fun e he => hn e (by simp [he])) d h
    · decide
    · decide
  have hs1 : stepSpread2 r1 ('[' :: '[' :: (c :: (x' ++ [']', ']']))) = none :=
    stepBracket_none_of_not_prefix (by simp [List.isPrefixOf, hcd])
  have hs2 : stepSpread2 r1 ('[' :: (c :: (x' ++ [']', ']']))) = none :=
    stepBracket_none_of_not_prefix (by simp [List.isPrefixOf, hcb])
  have e1 : scanRw (stepSpread2 r1) ('[' :: '[' :: (c :: (x' ++ [']', ']']))) =
      '[' :: '[' :: (c :: (x' ++ [']', ']'])) := by
    rw [scanRw_cons_none hs1, scanRw_cons_none hs2, scan_no_lb_s2 htail]
  have ht1 : stepSpread1 r2 ('[' :: '[' :: (c :: (x' ++ [']', ']']))) = none :=
    stepBracket_none_of_not_prefix (by rfl)
  have ht2 : stepSpread1 r2 ('[' :: (c :: (x' ++ [']', ']']))) = none :=
    stepBracket_none_of_not_prefix (by simp [List.isPrefixOf, hcd])
  have e2 : scanRw (stepSpread1 r2) ('[' :: '[' :: (c :: (x' ++ [']', ']']))) =
      '[' :: '[' :: (c :: (x' ++ [']', ']'])) := by
    rw [scanRw_cons_none ht1, scanRw_cons_none ht2, scan_no_lb_s1 htail]
  have e3 : scanRw (stepOpt2 r3) ('[' :: '[' :: (c :: (x' ++ [']', ']']))) = r3 (c :: x') := by
    have := scan_match_opt2 (r := r3) hx hn
    rw [show (['[', '['] ++ (c :: x') ++ [']', ']']) =
      '[' :: '[' :: (c :: (x' ++ [']', ']'])) from rfl] at this
    exact this
  unfold bracketChain
  rw [show (['[', '['] ++ (c :: x') ++ [']', ']']) =
    '[' :: '[' :: (c :: (x' ++ [']', ']'])) from rfl]
  rw [e1, e2, e3, scan_no_lb_o1 h3]

theorem chain_opt1 {r1 r2 r3 r4 : List Char → List Char} {x : List Char}
    (hx : x ≠ []) (hn : ∀ c ∈ x, isNameChar c = true) (h4 : ∀ c ∈ r4 x, c ≠ '[') :
    bracketChain r1 r2 r3 r4 (['['] ++ x ++ [']']) = r4 x := by
  obtain ⟨c, x', rfl⟩ : ∃ c x', x = c :: x' := by
    cases x with
    | nil => exact absurd rfl hx
    | cons c x' => exact ⟨c, x', rfl⟩
  have hcname := hn c (by simp)
  have hcd : ('.' == c) = false := by
    simpa using (isNameChar_ne hcname (by decide) : c ≠ '.').symm
  have hcb : ('[' == c) = false := by
    simpa using (isNameChar_ne hcname (by decide) : c ≠ '[').symm
  have htail : ∀ d ∈ (c :: (x' ++ [']'])), d ≠ '[' := by
    intro d hd
    simp only [List.mem_cons, List.mem_append, List.not_mem_nil, or_false] at hd
    rcases hd with rfl | h | rfl
    · exact isNameChar_ne hcname (by decide)
    · exact name_no_lb (fun e he => hn e (by simp [he])) d h
    · decide
  have hs1 : stepSpread2 r1 ('[' :: (c :: (x' ++ [']']))) = none :=
    stepBracket_none_of_not_prefix (by simp [List.isPrefixOf, hcb])
  have e1 : scanRw (stepSpread2 r1) ('[' :: (c :: (x' ++ [']']))) =
      '[' :: (c :: (x' ++ [']'])) := by
    rw [scanRw_cons_none hs1, scan_no_lb_s2 htail]
  have ht1 : stepSpread1 r2 ('[' :: (c :: (x' ++ [']']))) = none :=
    stepBracket_none_of_not_prefix (by simp [List.isPrefixOf, hcd])
  have e2 : scanRw (stepSpread1 r2) ('[' :: (c :: (x' ++ [']']))) =
      '[' :: (c :: (x' ++ [']'])) := by
    rw [scanRw_cons_none ht1, scan_no_lb_s1 htail]
  have ho1 : stepOpt2 r3 ('[' :: (c :: (x' ++ [']']))) = none :=
    stepBracket_none_of_not_prefix (by simp [List.isPrefixOf, hcb])
  have e3 : scanRw (stepOpt2 r3) ('[' :: (c :: (x' ++ [']']))) =
      '[' :: (c :: (x' ++ [']'])) := by
    rw [scanRw_cons_none ho1, scan_no_lb_o2 htail]
  have e4 : scanRw (stepOpt1 r4) ('[' :: (c :: (x' ++ [']']))) = r4 (c :: x') := by
    have := scan_match_opt1 (r := r4) hx hn
    rw [show (['['] ++ (c :: x') ++ [']']) = '[' :: (c :: (x' ++ [']'])) from rfl] at this
    exact this
  unfold bracketChain
  rw [show (['['] ++ (c :: x') ++ [']']) = '[' :: (c :: (x' ++ [']'])) from rfl]
  rw [e1, e2, e3, e4]

/-! ### String-level glue -/

theorem toList_app (s t : String) : (s ++ t).toList = s.toList ++ t.toList := by
  cases s
  cases t
  rfl

theorem mk_toList (s : String) : String.mk s.toList = s := rfl

theorem ne_empty_toList {x : String} (hx : x ≠ "") : x.toList ≠ [] := by
  intro h
  apply hx
  cases x with
  | mk d =>
    have hd : d = [] := h
    subst hd
    rfl

/-! ### Segment-transformation theorems (claim C1) -/

theorem segTransform_spread2 (x : String) (hx : x ≠ "")
    (hn : ∀ c ∈ x.toList, isNameChar c = true) :
    segTransform ("[[..." ++ x ++ "]]") = ":" ++ x ++ "\x7b.*\x7d" := by
  have hxl := ne_empty_toList hx
  have hio : ("[[..." ++ x ++ "]]").toList =
      ['[', '[', '.', '.', '.'] ++ x.toList ++ [']', ']'] := by
    rw [toList_app, toList_app]
    rfl
  unfold segTransform bracketRoute
  rw [hio, chain_spread2 hxl hn (renderStar_no_lb hn)]
  have hout : (":" ++ x ++ "\x7b.*\x7d").toList = renderStar x.toList := by
    rw [toList_app, toList_app]
    rfl
  rw [← hout, mk_toList]

theorem segTransform_spread1 (x : String) (hx : x ≠ "")
    (hn : ∀ c ∈ x.toList, isNameChar c = true) :
    segTransform ("[..." ++ x ++ "]") = ":" ++ x ++ "\x7b.*\x7d" := by
  have hxl := ne_empty_toList hx
  have hio : ("[..." ++ x ++ "]").toList = ['[', '.', '.', '.'] ++ x.toList ++ [']'] := by
    rw [toList_app, toList_app]
    rfl
  unfold segTransform bracketRoute
  rw [hio, chain_spread1 hxl hn (renderStar_no_lb hn)]
  have hout : (":" ++ x ++ "\x7b.*\x7d").toList = renderStar x.toList := by
    rw [toList_app, toList_app]
    rfl
  rw [← hout, mk_toList]

theorem segTransform_opt2 (x : String) (hx : x ≠ "")
    (hn : ∀ c ∈ x.toList, isNameChar c = true) :
    segTransform ("[[" ++ x ++ "]]") = ":" ++ x ++ "\x7b.+\x7d" := by
  have hxl := ne_empty_toList hx
  have hio : ("[[" ++ x ++ "]]").toList = ['[', '['] ++ x.toList ++ [']', ']'] := by
    rw [toList_app, toList_app]
    rfl
  unfold segTransform bracketRoute
  rw [hio, chain_opt2 hxl hn (renderPlus_no_lb hn)]
  have hout : (":" ++ x ++ "\x7b.+\x7d").toList = renderPlus x.toList := by
    rw [toList_app, toList_app]
    rfl
  rw [← hout, mk_toList]

theorem segTransform_opt1 (x : String) (hx : x ≠ "")
    (hn : ∀ c ∈ x.toList, isNameChar c = true) :
    segTransform ("[" ++ x ++ "]") = ":" ++ x := by
  have hxl := ne_empty_toList hx
  have hio : ("[" ++ x ++ "]").toList = ['['] ++ x.toList ++ [']'] := by
    rw [toList_app, toList_app]
    rfl
  unfold segTransform bracketRoute
  rw [hio, chain_opt1 hxl hn (renderColon_no_lb hn)]
  have hout : (":" ++ x).toList = renderColon x.toList := by
    rw [toList_app]
    rfl
  rw [← hout, mk_toList]

theorem segTransform_no_lb (s : String) (h : '[' ∉ s.toList) : segTransform s = s := by
  unfold segTransform bracketRoute
  rw [chain_no_lb fun c hc he => h (he ▸ hc)]
  exact mk_toList s

/-- C1 (corrected): the four bracket rules rewrite well-formed wholly
wrapped segments exactly as stated and leave bracket-free segments
unchanged, but they are global regex rewrites, so they also fire on
bracketed substrings embedded in longer text (see the counterexample); the
amended "otherwise" clause is that only segments containing no `[` are
guaranteed unchanged. -/
theorem c1_segment_rules :
    (∀ x : String, x ≠ "" → (∀ c ∈ x.toList, isNameChar c = true) →
        segTransform ("[[..." ++ x ++ "]]") = ":" ++ x ++ "\x7b.*\x7d") ∧
    (∀ x : String, x ≠ "" → (∀ c ∈ x.toList, isNameChar c = true) →
        segTransform ("[..." ++ x ++ "]") = ":" ++ x ++ "\x7b.*\x7d") ∧
    (∀ x : String, x ≠ "" → (∀ c ∈ x.toList, isNameChar c = true) →
        segTransform ("[[" ++ x ++ "]]") = ":" ++ x ++ "\x7b.+\x7d") ∧
    (∀ x : String, x ≠ "" → (∀ c ∈ x.toList, isNameChar c = true) →
        segTransform ("[" ++ x ++ "]") = ":" ++ x) ∧
    (∀ s : String, '[' ∉ s.toList → segTransform s = s) :=
  ⟨segTransform_spread2, segTransform_spread1, segTransform_opt2, segTransform_opt1,
    segTransform_no_lb⟩

/-- C1 counterexample: `a[b]c` is not one of the four wrapped forms, so the
claim's "any other text is left unchanged" requires it to map to itself;
the transformation instead rewrites the embedded `[b]` and yields `a:bc`. -/
theorem c1_counterexample : segTransform "a[b]c" = "a:bc" ∧ "a:bc" ≠ "a[b]c" := by
  constructor
  · decide
  · decide

/-- Witness for `c1_segment_rules` at concrete segments. -/
theorem c1_segment_rules_witness :
    segTransform "[[...slug]]" = ":slug\x7b.*\x7d" ∧ segTransform "plain" = "plain" :=
  ⟨c1_segment_rules.1 "slug" (by decide) (by decide),
    c1_segment_rules.2.2.2.2 "plain" (by decide)⟩

/-! ### Suffix-strip lemmas and the reserved-index theorems (claim C3) -/

theorem dropIfSuffix_append (suf p : List Char) : dropIfSuffix suf (p ++ suf) = p := by
  unfold dropIfSuffix
  rw [if_pos (by rw [List.isSuffixOf_iff_suffix]; exact List.suffix_append ..)]
  rw [List.length_append, Nat.add_sub_cancel]
  exact List.take_left ..

theorem dropIfSuffix_no {suf l : List Char} (h : ¬ suf <:+ l) : dropIfSuffix suf l = l := by
  unfold dropIfSuffix
  rw [if_neg fun hh => h (List.isSuffixOf_iff_suffix.mp hh)]

theorem routePathOf_append_index (p : String) (hlb : '[' ∉ p.toList) :
    routePathOf (p ++ "index") = String.mk (stripSlashEnd p.toList) := by
  unfold routePathOf stripIndexEnd
  rw [toList_app]
  rw [show ("index" : String).toList = "index".toList from rfl, dropIfSuffix_append]
  unfold bracketRoute
  rw [chain_no_lb fun c hc he => hlb (he ▸ hc)]

theorem routePathOf_dir_index (p : String) (hlb : '[' ∉ p.toList) :
    routePathOf (p ++ "/index") = p := by
  unfold routePathOf stripIndexEnd stripSlashEnd
  rw [toList_app]
  rw [show ("/index" : String).toList = ['/'] ++ "index".toList from rfl]
  rw [← List.append_assoc, dropIfSuffix_append]
  unfold bracketRoute
  rw [chain_no_lb ?_]
  · rw [show ("/" : String).toList = ['/'] from rfl, dropIfSuffix_append ['/'] p.toList]
    exact mk_toList p
  · intro c hc he
    subst he
    rcases List.mem_append.mp hc with h | h
    · exact hlb h
    · simp at h

theorem routePathOf_plain (p : String) (hidx : ¬ ("index".toList <:+ p.toList))
    (hlb : '[' ∉ p.toList) (hsl : ¬ (['/'] <:+ p.toList)) : routePathOf p = p := by
  unfold routePathOf stripIndexEnd stripSlashEnd
  rw [dropIfSuffix_no hidx]
  unfold bracketRoute
  rw [chain_no_lb fun c hc he => hlb (he ▸ hc)]
  rw [show ("/" : String).toList = ['/'] from rfl, dropIfSuffix_no hsl]
  exact mk_toList p

/-- C3 (corrected): the derived route path strips the literal text `index`
whenever the path ends with it — not only when the final segment equals
`index` — and then removes a trailing slash. So a directory index file
collapses to its parent path, the root index collapses to the empty path,
a path not ending in `index` is kept, but a final stem merely ending in
the text `index` is truncated (see the counterexample). -/
theorem c3_index_strip :
    (∀ p : String, '[' ∉ p.toList → routePathOf (p ++ "/index") = p) ∧
    routePathOf "index" = "" ∧
    (∀ p : String, '[' ∉ p.toList →
        routePathOf (p ++ "index") = String.mk (stripSlashEnd p.toList)) ∧
    (∀ p : String, ¬ ("index".toList <:+ p.toList) → '[' ∉ p.toList →
        ¬ (['/'] <:+ p.toList) → routePathOf p = p) :=
  ⟨routePathOf_dir_index, by decide, routePathOf_append_index, routePathOf_plain⟩

/-- C3 counterexample: the final stem `myindex` is not literally `index`,
so the claim keeps it unchanged; the code strips the regex match `/index$/`
and produces `api/my`. -/
theorem c3_counterexample :
    routePathOf "api/myindex" = "api/my" ∧ "api/my" ≠ "api/myindex" := by
  constructor
  · decide
  · decide

/-- Witness for `c3_index_strip` at concrete paths. -/
theorem c3_index_strip_witness :
    routePathOf ("api" ++ "/index") = "api" ∧ routePathOf "users/profile" = "users/profile" :=
  ⟨c3_index_strip.1 "api" (by decide),
    c3_index_strip.2.2.2 "users/profile" (by decide) (by decide) (by decide)⟩

/-! ### Alias sanitization theorems (claim C5) -/

theorem isAlpha_ne {c : Char} (h : c.isAlpha = true) {d : Char}
    (hd : d.isAlpha = false) : c ≠ d := by
  intro he
  rw [he, hd] at h
  exact Bool.noConfusion h

theorem isNameChar_of_alpha {c : Char} (h : c.isAlpha = true) : isNameChar c = true := by
  simp [isNameChar, Char.isAlphanum, h]

theorem safeNameOf_hyphen_first (t : String) (ht : t ≠ "")
    (ha : ∀ c ∈ t.toList, c.isAlpha = true) : safeNameOf ("-" ++ t) = "_" ++ t := by
  have hl : ("-" ++ t).toList = '-' :: t.toList := by rw [toList_app]; rfl
  unfold safeNameOf bracketBare
  rw [hl]
  have h1 : List.map (fun c => if c = '@' || c = '/' || c = '\\' then '_' else c)
      ('-' :: t.toList) = '-' :: t.toList := by
    rw [List.map_cons]
    congr 1
    rw [show (List.map (fun c => if c = '@' || c = '/' || c = '\\' then '_' else c) t.toList =
        List.map id t.toList) from List.map_congr_left ?_, List.map_id]
    intro c hc
    have h1 := isAlpha_ne (ha c hc) (d := '@') (by decide)
    have h2 := isAlpha_ne (ha c hc) (d := '/') (by decide)
    have h3 := isAlpha_ne (ha c hc) (d := '\\') (by decide)
    simp [h1, h2, h3]
  rw [h1]
  have h2 : List.dropWhile (fun c => c = '_') ('-' :: t.toList) = '-' :: t.toList := by
    simp [List.dropWhile]
  rw [h2]
  have h3 : List.map (fun c => if c = '-' then '_' else c) ('-' :: t.toList) =
      '_' :: t.toList := by
    rw [List.map_cons]
    congr 1
    rw [show (List.map (fun c => if c = '-' then '_' else c) t.toList =
        List.map id t.toList) from List.map_congr_left ?_, List.map_id]
    intro c hc
    simp [isAlpha_ne (ha c hc) (d := '-') (by decide)]
  rw [h3]
  rw [chain_no_lb ?_]
  · have hfin : ("_" ++ t).toList = '_' :: t.toList := by rw [toList_app]; rfl
    rw [← hfin, mk_toList]
  · intro c hc he
    subst he
    rcases List.mem_cons.mp hc with h | h
    · exact absurd h (by decide)
    · exact absurd (ha '[' h) (by decide)

theorem safeNameOf_at_first (t : String) (ht : t ≠ "")
    (ha : ∀ c ∈ t.toList, c.isAlpha = true) : safeNameOf ("@" ++ t) = t := by
  have hl : ("@" ++ t).toList = '@' :: t.toList := by rw [toList_app]; rfl
  unfold safeNameOf bracketBare
  rw [hl]
  have h1 : List.map (fun c => if c = '@' || c = '/' || c = '\\' then '_' else c)
      ('@' :: t.toList) = '_' :: t.toList := by
    rw [List.map_cons]
    congr 1
    rw [show (List.map (fun c => if c = '@' || c = '/' || c = '\\' then '_' else c) t.toList =
        List.map id t.toList) from List.map_congr_left ?_, List.map_id]
    intro c hc
    have h1 := isAlpha_ne (ha c hc) (d := '@') (by decide)
    have h2 := isAlpha_ne (ha c hc) (d := '/') (by decide)
    have h3 := isAlpha_ne (ha c hc) (d := '\\') (by decide)
    simp [h1, h2, h3]
  rw [h1]
  have h2 : List.dropWhile (fun c => c = '_') ('_' :: t.toList) = t.toList := by
    cases hcl : t.toList with
    | nil => exact absurd hcl (ne_empty_toList ht)
    | cons c r =>
      have hne := isAlpha_ne (ha c (by rw [hcl]; simp)) (d := '_') (by decide)
      simp [List.dropWhile, hne]
  rw [h2]
  have h3 : List.map (fun c => if c = '-' then '_' else c) t.toList = t.toList := by
    rw [show (List.map (fun c => if c = '-' then '_' else c) t.toList =
        List.map id t.toList) from List.map_congr_left ?_, List.map_id]
    intro c hc
    simp [isAlpha_ne (ha c hc) (d := '-') (by decide)]
  rw [h3]
  rw [chain_no_lb ?_]
  · exact mk_toList t
  · intro c hc he
    subst he
    exact absurd (ha '[' hc) (by decide)

/-- C5 (corrected): the leading-underscore strip of `safeName` runs after
the separator/`@` replacement but before the hyphen replacement and the
bracket stripping, so it removes only separator-induced leading
underscores; a path beginning with a hyphen yields an alias beginning with
an underscore. -/
theorem c5_alias_sanitization :
    (∀ t : String, t ≠ "" → (∀ c ∈ t.toList, c.isAlpha = true) →
        safeNameOf ("-" ++ t) = "_" ++ t) ∧
    (∀ t : String, t ≠ "" → (∀ c ∈ t.toList, c.isAlpha = true) →
        safeNameOf ("@" ++ t) = t) ∧
    safeNameOf "@special/-dash-file" = "special__dash_file" :=
  ⟨safeNameOf_hyphen_first, safeNameOf_at_first, by decide⟩

/-- C5 counterexample: the claim promises that no generated alias begins
with an underscore, naming hyphen-initial files in particular; the alias
computed for the import path `-foo` is `_foo`. -/
theorem c5_counterexample :
    safeNameOf "-foo" = "_foo" ∧ ("_foo".toList.head? = some '_') := by
  constructor
  · decide
  · decide

/-- Witness for `c5_alias_sanitization` at concrete names. -/
theorem c5_alias_sanitization_witness :
    safeNameOf ("-" ++ "foo") = "_" ++ "foo" ∧ safeNameOf ("@" ++ "api") = "api" :=
  ⟨c5_alias_sanitization.1 "foo" (by decide) (by decide),
    c5_alias_sanitization.2.1 "api" (by decide) (by decide)⟩

/-! ### The route ordering is a strict weak order (claim C2) -/

theorem listLtChar_irrefl : ∀ l : List Char, listLtChar l l = false
  | [] => rfl
  | c :: l => by simp [listLtChar, lt_irrefl, listLtChar_irrefl l]

theorem listLtChar_asymm : ∀ {a b : List Char},
    listLtChar a b = true → listLtChar b a = false
  | [], [], h => by simp [listLtChar] at h
  | [], _ :: _, _ => rfl
  | _ :: _, [], h => by simp [listLtChar] at h
  | a :: as, b :: bs, h => by
    rcases lt_trichotomy a b with hab | hab | hab
    · simp only [listLtChar, if_neg (lt_asymm hab), if_pos hab]
    · subst hab
      simp only [listLtChar, if_neg (lt_irrefl a)] at h ⊢
      exact listLtChar_asymm h
    · simp only [listLtChar, if_neg (lt_asymm hab), if_pos hab] at h
      exact Bool.noConfusion h

theorem listLtChar_trans : ∀ {a b c : List Char},
    listLtChar a b = true → listLtChar b c = true → listLtChar a c = true
  | [], _, _ :: _, _, _ => rfl
  | [], b, [], _, h2 => by cases b <;> simp [listLtChar] at h2
  | _ :: _, [], _, h1, _ => by simp [listLtChar] at h1
  | a :: as, b :: bs, [], _, h2 => by simp [listLtChar] at h2
  | a :: as, b :: bs, c :: cs, h1, h2 => by
    rcases lt_trichotomy a b with hab | hab | hab
    · rcases lt_trichotomy b c with hbc | hbc | hbc
      · simp only [listLtChar, if_pos (lt_trans hab hbc)]
      · subst hbc
        simp only [listLtChar, if_pos hab]
      · simp only [listLtChar, if_neg (lt_asymm hbc), if_pos hbc] at h2
        exact Bool.noConfusion h2
    · subst hab
      rcases lt_trichotomy a c with hac | hac | hac
      · simp only [listLtChar, if_pos hac]
      · subst hac
        simp only [listLtChar, if_neg (lt_irrefl a)] at h1 h2 ⊢
        exact listLtChar_trans h1 h2
      · simp only [listLtChar, if_neg (lt_asymm hac), if_pos hac] at h2
        exact Bool.noConfusion h2
    · simp only [listLtChar, if_neg (lt_asymm hab), if_pos hab] at h1
      exact Bool.noConfusion h1

theorem listLtChar_eq_of_not : ∀ {a b : List Char},
    listLtChar a b = false → listLtChar b a = false → a = b
  | [], [], _, _ => rfl
  | [], _ :: _, h1, _ => by simp [listLtChar] at h1
  | _ :: _, [], _, h2 => by simp [listLtChar] at h2
  | a :: as, b :: bs, h1, h2 => by
    rcases lt_trichotomy a b with hab | hab | hab
    · simp [listLtChar, hab] at h1
    · subst hab
      simp only [listLtChar, if_neg (lt_irrefl a)] at h1 h2
      rw [listLtChar_eq_of_not h1 h2]
    · simp [listLtChar, if_neg (lt_asymm hab), hab] at h2

theorem strLt_irrefl (a : String) : strLt a a = false := listLtChar_irrefl _

theorem strLt_asymm {a b : String} (h : strLt a b = true) : strLt b a = false :=
  listLtChar_asymm h

theorem strLt_trans {a b c : String} (h1 : strLt a b = true) (h2 : strLt b c = true) :
    strLt a c = true := listLtChar_trans h1 h2

theorem strLt_eq_of_not {a b : String} (h1 : strLt a b = false)
    (h2 : strLt b a = false) : a = b :=
  String.toList_inj.mp (listLtChar_eq_of_not h1 h2)

/-- The sort key realized by `cmpSegNe`: rank first, then the JS
lexicographic order. -/
def keyLt (a b : String) : Prop :=
  segRank a < segRank b ∨ (segRank a = segRank b ∧ strLt a b = true)

instance (a b : String) : Decidable (keyLt a b) := by
  unfold keyLt
  infer_instance

theorem keyLt_irrefl (a : String) : ¬ keyLt a a := by
  rintro (h | ⟨-, h⟩)
  · exact absurd h (lt_irrefl _)
  · rw [strLt_irrefl] at h
    exact Bool.noConfusion h

theorem keyLt_asymm {a b : String} (h : keyLt a b) : ¬ keyLt b a := by
  rintro (h' | ⟨he', hs'⟩)
  · rcases h with h | ⟨he, -⟩
    · exact absurd (lt_trans h h') (lt_irrefl _)
    · rw [he] at h'
      exact absurd h' (lt_irrefl _)
  · rcases h with h | ⟨he, hs⟩
    · rw [he'] at h
      exact absurd h (lt_irrefl _)
    · rw [strLt_asymm hs] at hs'
      exact Bool.noConfusion hs'

theorem keyLt_trans {a b c : String} (h1 : keyLt a b) (h2 : keyLt b c) : keyLt a c := by
  rcases h1 with h1 | ⟨he1, hs1⟩
  · rcases h2 with h2 | ⟨he2, -⟩
    · exact Or.inl (lt_trans h1 h2)
    · exact Or.inl (he2 ▸ h1)
  · rcases h2 with h2 | ⟨he2, hs2⟩
    · exact Or.inl (he1 ▸ h2)
    · exact Or.inr ⟨he1.trans he2, strLt_trans hs1 hs2⟩

theorem keyLt_total {a b : String} (h : a ≠ b) : keyLt a b ∨ keyLt b a := by
  rcases lt_trichotomy (segRank a) (segRank b) with hr | hr | hr
  · exact Or.inl (Or.inl hr)
  · cases hab : strLt a b with
    | true => exact Or.inl (Or.inr ⟨hr, hab⟩)
    | false =>
      cases hba : strLt b a with
      | true => exact Or.inr (Or.inr ⟨hr.symm, hba⟩)
      | false => exact absurd (strLt_eq_of_not hab hba) h
  · exact Or.inr (Or.inl hr)

theorem isParamSeg_of_greedy {s : String} (h : isGreedySeg s = true) :
    isParamSeg s = true := by
  unfold isGreedySeg at h
  exact (Bool.and_eq_true_iff.mp h).1

theorem not_greedy_of_not_param {s : String} (h : isParamSeg s = false) :
    isGreedySeg s = false := by
  cases hg : isGreedySeg s
  · rfl
  · rw [isParamSeg_of_greedy hg] at h
    exact Bool.noConfusion h

/-- The comparator `cmpSegNe` on two different segments decides exactly the key order. -/
theorem cmpSegNe_eq {a b : String} (h : a ≠ b) :
    cmpSegNe a b = if keyLt a b then -1 else 1 := by
  have hlex : ∀ hra : segRank a = segRank b,
      (if strLt b a = true then (1 : Int) else if strLt a b = true then -1 else 0) =
        if keyLt a b then -1 else 1 := by
    intro hra
    have hk : keyLt a b ↔ strLt a b = true := by
      unfold keyLt
      rw [hra]
      simp
    cases hab : strLt a b with
    | true => rw [strLt_asymm hab, if_neg (Bool.false_ne_true), if_pos rfl,
        if_pos (hk.mpr hab)]
    | false =>
      cases hba : strLt b a with
      | true => rw [if_pos rfl, if_neg (fun hkk => Bool.noConfusion (hab ▸ hk.mp hkk))]
      | false => exact absurd (strLt_eq_of_not hab hba) h
  unfold cmpSegNe
  cases hpa : isParamSeg a <;> cases hpb : isParamSeg b
  · have hra : segRank a = segRank b := by simp [segRank, hpa, hpb]
    simpa using hlex hra
  · have hk : keyLt a b := by
      refine Or.inl ?_
      cases hgb : isGreedySeg b <;> simp [segRank, hpa, hpb, hgb]
    simp [hk]
  · have hk : ¬ keyLt a b := by
      rintro (hkk | ⟨hkk, -⟩) <;> revert hkk <;>
        cases hga : isGreedySeg a <;> simp [segRank, hpa, hpb, hga]
    simp [hk]
  · cases hga : isGreedySeg a <;> cases hgb : isGreedySeg b
    · have hra : segRank a = segRank b := by simp [segRank, hpa, hpb, hga, hgb]
      simpa using hlex hra
    · have hk : keyLt a b := Or.inl (by simp [segRank, hpa, hpb, hga, hgb])
      simp [hk]
    · have hk : ¬ keyLt a b := by
        rintro (hkk | ⟨hkk, -⟩) <;> revert hkk <;> simp [segRank, hpa, hpb, hga, hgb]
      simp [hk]
    · have hra : segRank a = segRank b := by simp [segRank, hpa, hpb, hga, hgb]
      simpa using hlex hra

theorem cmpSegNe_neg_iff {x y : String} (h : x ≠ y) :
    cmpSegNe x y = -1 ↔ keyLt x y := by
  rw [cmpSegNe_eq h]
  by_cases hk : keyLt x y <;> simp [hk]

theorem cmpSegNe_ne_zero {x y : String} (h : x ≠ y) : cmpSegNe x y ≠ 0 := by
  rw [cmpSegNe_eq h]
  by_cases hk : keyLt x y <;> simp [hk]

theorem cmpSegNe_anti {x y : String} (h : x ≠ y) : cmpSegNe y x = - cmpSegNe x y := by
  rw [cmpSegNe_eq h, cmpSegNe_eq (Ne.symm h)]
  rcases keyLt_total h with hk | hk
  · rw [if_neg (keyLt_asymm hk), if_pos hk]
    decide
  · rw [if_pos hk, if_neg (keyLt_asymm hk)]

theorem cmpSegNe_static_param {x y : String} (hx : isParamSeg x = false)
    (hy : isParamSeg y = true) : cmpSegNe x y = -1 := by
  unfold cmpSegNe
  rw [hx, hy]
  simp

theorem param_ne_empty {y : String} (hy : isParamSeg y = true) : y ≠ "" := by
  intro he
  subst he
  exact Bool.noConfusion hy

/-- The uniform unfolding of the `sortPaths` loop: both lists exhausted
means equal rank, otherwise the heads (missing = `""`) decide or the loop
continues. -/
theorem cmpParts_unfold : ∀ a b : List String,
    cmpParts a b =
      if a = [] ∧ b = [] then 0
      else if a.headD "" = b.headD "" then cmpParts a.tail b.tail
      else cmpSegNe (a.headD "") (b.headD "")
  | [], [] => rfl
  | [], b :: bs => by
    rw [if_neg (by simp)]
    show cmpPadR (b :: bs) = _
    unfold cmpPadR
    rfl
  | a :: as, [] => by
    rw [if_neg (by simp)]
    show (if a = "" then cmpPadL as else cmpSegNe a "") = _
    have hpl : cmpPadL as = cmpParts as [] := by cases as <;> rfl
    rw [hpl]
    rfl
  | a :: as, b :: bs => by
    rw [if_neg (by simp)]
    rfl

theorem tails_len_lt {a b : List String} (h : ¬ (a = [] ∧ b = [])) :
    a.tail.length + b.tail.length < a.length + b.length := by
  cases a <;> cases b <;> simp_all <;> omega

theorem cmpParts_self : ∀ l : List String, cmpParts l l = 0
  | [] => rfl
  | a :: l => by
    show (if a = a then cmpParts l l else cmpSegNe a a) = 0
    rw [if_pos rfl]
    exact cmpParts_self l

theorem cmpParts_anti (a b : List String) : cmpParts b a = - cmpParts a b := by
  suffices H : ∀ n (a b : List String), a.length + b.length ≤ n →
      cmpParts b a = - cmpParts a b from H (a.length + b.length) a b le_rfl
  intro n
  induction n with
  | zero =>
    intro a b h
    have ha : a = [] := List.length_eq_zero.mp (by omega)
    have hb : b = [] := List.length_eq_zero.mp (by omega)
    subst ha
    subst hb
    rfl
  | succ n ih =>
    intro a b h
    by_cases hab : a = [] ∧ b = []
    · obtain ⟨rfl, rfl⟩ := hab
      rfl
    · have hba : ¬ (b = [] ∧ a = []) := fun hh => hab ⟨hh.2, hh.1⟩
      rw [cmpParts_unfold a b, cmpParts_unfold b a, if_neg hab, if_neg hba]
      by_cases hh : a.headD "" = b.headD ""
      · rw [if_pos hh, if_pos hh.symm]
        exact ih a.tail b.tail (by have := tails_len_lt hab; omega)
      · rw [if_neg hh, if_neg fun he => hh he.symm]
        exact cmpSegNe_anti hh

theorem cmpParts_values (a b : List String) :
    cmpParts a b = -1 ∨ cmpParts a b = 0 ∨ cmpParts a b = 1 := by
  suffices H : ∀ n (a b : List String), a.length + b.length ≤ n →
      cmpParts a b = -1 ∨ cmpParts a b = 0 ∨ cmpParts a b = 1 from
    H (a.length + b.length) a b le_rfl
  intro n
  induction n with
  | zero =>
    intro a b h
    have ha : a = [] := List.length_eq_zero.mp (by omega)
    have hb : b = [] := List.length_eq_zero.mp (by omega)
    subst ha
    subst hb
    exact Or.inr (Or.inl rfl)
  | succ n ih =>
    intro a b h
    by_cases hab : a = [] ∧ b = []
    · obtain ⟨rfl, rfl⟩ := hab
      exact Or.inr (Or.inl rfl)
    · rw [cmpParts_unfold a b, if_neg hab]
      by_cases hh : a.headD "" = b.headD ""
      · rw [if_pos hh]
        exact ih a.tail b.tail (by have := tails_len_lt hab; omega)
      · rw [if_neg hh, cmpSegNe_eq hh]
        by_cases hk : keyLt (a.headD "") (b.headD "")
        · rw [if_pos hk]
          exact Or.inl rfl
        · rw [if_neg hk]
          exact Or.inr (Or.inr rfl)

theorem cmpParts_trans_neg :
    ∀ a b c : List String, cmpParts a b = -1 → cmpParts b c = -1 → cmpParts a c = -1 := by
  suffices H : ∀ n (a b c : List String), a.length + b.length + c.length ≤ n →
      cmpParts a b = -1 → cmpParts b c = -1 → cmpParts a c = -1 from
    fun a b c => H (a.length + b.length + c.length) a b c le_rfl
  intro n
  induction n with
  | zero =>
    intro a b c h h1 _
    have ha : a = [] := List.length_eq_zero.mp (by omega)
    have hb : b = [] := List.length_eq_zero.mp (by omega)
    subst ha
    subst hb
    exact absurd h1 (by decide)
  | succ n ih =>
    intro a b c hlen h1 h2
    have hab : ¬ (a = [] ∧ b = []) := by
      rintro ⟨rfl, rfl⟩
      exact absurd h1 (by decide)
    have hbc : ¬ (b = [] ∧ c = []) := by
      rintro ⟨rfl, rfl⟩
      exact absurd h2 (by decide)
    by_cases hxy : a.headD "" = b.headD ""
    · have h1' : cmpParts a.tail b.tail = -1 := by
        rw [cmpParts_unfold, if_neg hab, if_pos hxy] at h1
        exact h1
      by_cases hyz : b.headD "" = c.headD ""
      · have h2' : cmpParts b.tail c.tail = -1 := by
          rw [cmpParts_unfold, if_neg hbc, if_pos hyz] at h2
          exact h2
        have hrec := ih a.tail b.tail c.tail
          (by have := tails_len_lt hab; simp only [List.length_tail]; omega) h1' h2'
        by_cases hac : a = [] ∧ c = []
        · obtain ⟨rfl, rfl⟩ := hac
          simp only [List.tail_nil] at hrec
          exact absurd hrec (by decide)
        · rw [cmpParts_unfold a c, if_neg hac, if_pos (hxy.trans hyz)]
          exact hrec
      · have h2' : cmpSegNe (b.headD "") (c.headD "") = -1 := by
          rw [cmpParts_unfold, if_neg hbc, if_neg hyz] at h2
          exact h2
        have hxz : a.headD "" ≠ c.headD "" := fun he => hyz (hxy.symm.trans he)
        have hac : ¬ (a = [] ∧ c = []) := by
          rintro ⟨rfl, rfl⟩
          exact hxz rfl
        rw [cmpParts_unfold a c, if_neg hac, if_neg hxz, hxy]
        exact h2'
    · have h1' : cmpSegNe (a.headD "") (b.headD "") = -1 := by
        rw [cmpParts_unfold, if_neg hab, if_neg hxy] at h1
        exact h1
      by_cases hyz : b.headD "" = c.headD ""
      · have hxz : a.headD "" ≠ c.headD "" := fun he => hxy (he.trans hyz.symm)
        have hac : ¬ (a = [] ∧ c = []) := by
          rintro ⟨rfl, rfl⟩
          exact hxz rfl
        rw [cmpParts_unfold a c, if_neg hac, if_neg hxz, ← hyz]
        exact h1'
      · have h2' : cmpSegNe (b.headD "") (c.headD "") = -1 := by
          rw [cmpParts_unfold, if_neg hbc, if_neg hyz] at h2
          exact h2
        have hk1 : keyLt (a.headD "") (b.headD "") := (cmpSegNe_neg_iff hxy).mp h1'
        have hk2 : keyLt (b.headD "") (c.headD "") := (cmpSegNe_neg_iff hyz).mp h2'
        have hk : keyLt (a.headD "") (c.headD "") := keyLt_trans hk1 hk2
        have hxz : a.headD "" ≠ c.headD "" := by
          rintro he
          exact keyLt_asymm hk1 (he ▸ hk2)
        have hac : ¬ (a = [] ∧ c = []) := by
          rintro ⟨rfl, rfl⟩
          exact hxz rfl
        rw [cmpParts_unfold a c, if_neg hac, if_neg hxz]
        exact (cmpSegNe_neg_iff hxz).mpr hk

theorem cmpParts_trans_zero :
    ∀ a b c : List String, cmpParts a b = 0 → cmpParts b c = 0 → cmpParts a c = 0 := by
  suffices H : ∀ n (a b c : List String), a.length + b.length + c.length ≤ n →
      cmpParts a b = 0 → cmpParts b c = 0 → cmpParts a c = 0 from
    fun a b c => H (a.length + b.length + c.length) a b c le_rfl
  intro n
  induction n with
  | zero =>
    intro a b c h _ _
    have ha : a = [] := List.length_eq_zero.mp (by omega)
    have hc : c = [] := List.length_eq_zero.mp (by omega)
    subst ha
    subst hc
    rfl
  | succ n ih =>
    intro a b c hlen h1 h2
    by_cases hac : a = [] ∧ c = []
    · obtain ⟨rfl, rfl⟩ := hac
      rfl
    · have hxy : a.headD "" = b.headD "" := by
        by_cases habn : a = [] ∧ b = []
        · obtain ⟨rfl, rfl⟩ := habn
          rfl
        · by_contra hne
          rw [cmpParts_unfold, if_neg habn, if_neg hne] at h1
          exact cmpSegNe_ne_zero hne h1
      have hyz : b.headD "" = c.headD "" := by
        by_cases hbcn : b = [] ∧ c = []
        · obtain ⟨rfl, rfl⟩ := hbcn
          rfl
        · by_contra hne
          rw [cmpParts_unfold, if_neg hbcn, if_neg hne] at h2
          exact cmpSegNe_ne_zero hne h2
      have h1' : cmpParts a.tail b.tail = 0 := by
        by_cases habn : a = [] ∧ b = []
        · obtain ⟨rfl, rfl⟩ := habn
          rfl
        · rw [cmpParts_unfold, if_neg habn, if_pos hxy] at h1
          exact h1
      have h2' : cmpParts b.tail c.tail = 0 := by
        by_cases hbcn : b = [] ∧ c = []
        · obtain ⟨rfl, rfl⟩ := hbcn
          rfl
        · rw [cmpParts_unfold, if_neg hbcn, if_pos hyz] at h2
          exact h2
      have hlt : a.tail.length + b.tail.length + c.tail.length ≤ n := by
        have h3 : a.tail.length ≤ a.length := by cases a <;> simp
        have h4 : b.tail.length ≤ b.length := by cases b <;> simp
        have h5 : c.tail.length ≤ c.length := by cases c <;> simp
        have h6 := tails_len_lt hac
        omega
      have hrec := ih a.tail b.tail c.tail hlt h1' h2'
      rw [cmpParts_unfold a c, if_neg hac, if_pos (hxy.trans hyz)]
      exact hrec

/-- A path whose segments are a prefix of another path's segments ranks
strictly before it when the first extra segment is parametric: the missing
position reads as the empty string, which is static. -/
theorem cmpParts_prefix_param : ∀ (p : List String) (y : String) (ys : List String),
    isParamSeg y = true → cmpParts p (p ++ y :: ys) = -1
  | [], y, ys, hy => by
    have hne : "" ≠ y := fun he => param_ne_empty hy he.symm
    rw [cmpParts_unfold, if_neg (by simp)]
    simp only [List.nil_append, List.headD_nil, List.headD_cons, List.tail_nil]
    rw [if_neg hne]
    exact cmpSegNe_static_param (by decide) hy
  | a :: p, y, ys, hy => by
    show (if a = a then cmpParts p (p ++ y :: ys) else cmpSegNe a a) = -1
    rw [if_pos rfl]
    exact cmpParts_prefix_param p y ys hy

theorem cmpSegNe_same_cat {x y : String} (h : x ≠ y) (hp : isParamSeg x = isParamSeg y)
    (hg : isGreedySeg x = isGreedySeg y) :
    cmpSegNe x y = if strLt x y = true then -1 else 1 := by
  rw [cmpSegNe_eq h]
  have hra : segRank x = segRank y := by
    unfold segRank
    rw [hp, hg]
  have hk : keyLt x y ↔ strLt x y = true := by
    unfold keyLt
    rw [hra]
    simp
  by_cases hs : strLt x y = true
  · rw [if_pos (hk.mpr hs), if_pos hs]
  · rw [if_neg fun hkk => hs (hk.mp hkk), if_neg hs]

theorem cmpSegNe_param_greedy {x y : String} (hx : isParamSeg x = true)
    (hy : isParamSeg y = true) (hgx : isGreedySeg x = false) (hgy : isGreedySeg y = true) :
    cmpSegNe x y = -1 := by
  unfold cmpSegNe
  rw [hx, hy, hgx, hgy]
  simp

theorem cmpParts_neg_iff (a b : List String) : cmpParts a b < 0 ↔ cmpParts a b = -1 := by
  constructor
  · intro hlt
    rcases cmpParts_values a b with h | h | h
    · exact h
    · omega
    · omega
  · intro he
    rw [he]
    decide

/-- C2 (confirmed): `sortPaths` is a strict weak ordering — the induced
strict relation is irreflexive, asymmetric and transitive, and
equal-ranking is transitive — and the segment comparison behaves as
claimed: positions are compared over `/`-split segments with missing
trailing positions read as the empty string (so a segment-wise prefix
never loses to a parametric continuation), a static segment precedes a
parametric one, a bounded parameter precedes a greedy one, and two
segments of the same category compare lexicographically. -/
theorem c2_sort_ordering :
    (∀ a b c : String, sortPaths a b < 0 → sortPaths b c < 0 → sortPaths a c < 0) ∧
    (∀ a : String, sortPaths a a = 0) ∧
    (∀ a b : String, sortPaths a b < 0 → 0 < sortPaths b a) ∧
    (∀ a b c : String, sortPaths a b = 0 → sortPaths b c = 0 → sortPaths a c = 0) ∧
    (∀ x y : String, isParamSeg x = false → isParamSeg y = true → cmpSegNe x y = -1) ∧
    (∀ x y : String, isParamSeg x = true → isParamSeg y = true → isGreedySeg x = false →
        isGreedySeg y = true → cmpSegNe x y = -1) ∧
    (∀ (p : List String) (y : String) (ys : List String), isParamSeg y = true →
        cmpParts p (p ++ y :: ys) = -1) ∧
    (∀ x y : String, x ≠ y → isParamSeg x = isParamSeg y → isGreedySeg x = isGreedySeg y →
        cmpSegNe x y = if strLt x y = true then -1 else 1) := by
  refine ⟨?_, ?_, ?_, ?_, ?_, ?_, ?_, ?_⟩
  · intro a b c h1 h2
    rw [sortPaths] at *
    rw [cmpParts_neg_iff] at *
    exact cmpParts_trans_neg _ _ _ h1 h2
  · intro a
    rw [sortPaths]
    exact cmpParts_self _
  · intro a b h
    rw [sortPaths] at *
    rw [cmpParts_neg_iff] at h
    rw [cmpParts_anti, h]
    decide
  · intro a b c h1 h2
    rw [sortPaths] at *
    exact cmpParts_trans_zero _ _ _ h1 h2
  · intro x y hx hy
    exact cmpSegNe_static_param hx hy
  · intro x y hx hy hgx hgy
    exact cmpSegNe_param_greedy hx hy hgx hgy
  · intro p y ys hy
    exact cmpParts_prefix_param p y ys hy
  · intro x y h hp hg
    exact cmpSegNe_same_cat h hp hg

/-- Witness for `c2_sort_ordering` at concrete paths. -/
theorem c2_sort_ordering_witness :
    sortPaths "/api/users" "/api/:path\x7b.+\x7d" < 0 ∧ sortPaths "/users/x" "/users/x" = 0 :=
  ⟨c2_sort_ordering.1 "/api/users" "/api/:id" "/api/:path\x7b.+\x7d" (by decide) (by decide),
    c2_sort_ordering.2.1 "/users/x"⟩

/-! ### Import-list ordering (claim C4) -/

theorem afterQuote_append {l1 : List Char} (l2 : List Char) (h : qc ∉ l1) :
    afterQuote (l1 ++ qc :: l2) = l2 := by
  induction l1 with
  | nil => simp [afterQuote]
  | cons c r ih =>
    have hc : c ≠ qc := fun he => h (by simp [he])
    simp only [List.cons_append, afterQuote, if_neg hc]
    exact ih fun hm => h (by simp [hm])

/-- Extraction of the quoted module path from a generated import line. -/
theorem extractQuoted_importLine (aliasName rel : String) (ha : qc ∉ aliasName.toList)
    (hr : qc ∉ rel.toList) : extractQuoted (importLine aliasName rel) = "./" ++ rel := by
  have hl : (importLine aliasName rel).toList =
      ("import * as ".toList ++ aliasName.toList ++ " from ".toList) ++
        qc :: (('.' :: '/' :: rel.toList) ++ qc :: [';']) := by
    unfold importLine sq
    rw [toList_app, toList_app, toList_app, toList_app, toList_app, toList_app]
    simp [String.singleton, qc]
  unfold extractQuoted
  rw [hl, afterQuote_append _ ?_]
  · rw [show (('.' :: '/' :: rel.toList) ++ qc :: [';']).reverse =
      ';' :: qc :: ('.' :: '/' :: rel.toList).reverse from by simp]
    rw [show afterQuote (';' :: qc :: ('.' :: '/' :: rel.toList).reverse) =
      ('.' :: '/' :: rel.toList).reverse from by simp [afterQuote, qc]]
    rw [List.reverse_reverse]
    have hfin : ("./" ++ rel).toList = '.' :: '/' :: rel.toList := by rw [toList_app]; rfl
    rw [← hfin, mk_toList]
  · intro hm
    rcases List.mem_append.mp hm with hm | hm
    · rcases List.mem_append.mp hm with hm | hm
      · revert hm
        decide
      · exact ha hm
    · revert hm
      decide

/-- The comparator applied to two generated import lines is `sortPaths` on
their quoted `./`-relative module paths. -/
theorem importCmp_eq (a1 r1 a2 r2 : String) (h1 : qc ∉ a1.toList) (h2 : qc ∉ r1.toList)
    (h3 : qc ∉ a2.toList) (h4 : qc ∉ r2.toList) :
    importCmp (importLine a1 r1) (importLine a2 r2) =
      sortPaths ("./" ++ r1) ("./" ++ r2) := by
  unfold importCmp
  rw [extractQuoted_importLine a1 r1 h1 h2, extractQuoted_importLine a2 r2 h3 h4]

/-- The example tree of the import-ordering claim: `users/[id].ts` and
`users/profile.ts`, both exporting a GET handler. -/
def c4Tree : List FSTree :=
  [FSTree.dir "users"
    [FSTree.file "[id].ts" "export const onRequestGet = h",
     FSTree.file "profile.ts" "export const onRequestGet = h"]]

/-- C4 (corrected): both lists are sorted by the same comparator
(`sortPaths` applied to the quoted import target), but import targets keep
the bracket syntax and contain no `:`-prefixed segment, so every segment —
bracketed or not — counts as static and the first differing segment
compares lexicographically; `[` sorts before every alphanumeric character,
so the import for `users/[id]` ranks before the one for `users/profile`,
the reverse of the claimed example. -/
theorem c4_import_ordering :
    (∀ a1 r1 a2 r2 : String, qc ∉ a1.toList → qc ∉ r1.toList → qc ∉ a2.toList →
        qc ∉ r2.toList →
        importCmp (importLine a1 r1) (importLine a2 r2) =
          sortPaths ("./" ++ r1) ("./" ++ r2)) ∧
    (∀ x y : String, isParamSeg x = false → isParamSeg y = false → x ≠ y →
        cmpSegNe x y = if strLt x y = true then -1 else 1) ∧
    importCmp (importLine "users_id" "routes/users/[id]")
      (importLine "users_profile" "routes/users/profile") = -1 := by
  refine ⟨importCmp_eq, ?_, by decide⟩
  intro x y hx hy hne
  exact cmpSegNe_same_cat hne (hx.trans hy.symm)
    ((not_greedy_of_not_param hx).trans (not_greedy_of_not_param hy).symm)

/-- C4 counterexample: on the example tree the generated import list sorts
the `users/[id]` import before the `users/profile` import, while the claim
requires the static `users/profile` import to rank first. -/
theorem c4_counterexample :
    sortByCmp importCmp (traverseL "routes" "router.ts" false c4Tree "").1 =
      [importLine "users_id" "routes/users/[id]",
        importLine "users_profile" "routes/users/profile"] ∧
    importCmp (importLine "users_profile" "routes/users/profile")
      (importLine "users_id" "routes/users/[id]") = 1 := by
  constructor
  · decide
  · decide

/-- Witness for `c4_import_ordering` at concrete import lines. -/
theorem c4_import_ordering_witness :
    importCmp (importLine "users_id" "routes/users/[id]")
        (importLine "users_profile" "routes/users/profile") =
      sortPaths ("./" ++ "routes/users/[id]") ("./" ++ "routes/users/profile") ∧
    cmpSegNe "[id]" "profile" = if strLt "[id]" "profile" = true then -1 else 1 :=
  ⟨c4_import_ordering.1 "users_id" "routes/users/[id]" "users_profile" "routes/users/profile"
      (by decide) (by decide) (by decide) (by decide),
    c4_import_ordering.2.1 "[id]" "profile" (by decide) (by decide) (by decide)⟩

/-! ### Per-file route and import counts (claim C6) -/

theorem listContains_of_prefix_at {pat : List Char} :
    ∀ {s : List Char}, (∃ t, pat.isPrefixOf t = true ∧ t <:+ s) →
      listContains pat s = true := by
  intro s
  induction s with
  | nil =>
    rintro ⟨t, hp, ht⟩
    rw [List.suffix_nil.mp ht] at hp
    simpa [listContains] using hp
  | cons c r ih =>
    rintro ⟨t, hp, ht⟩
    rcases List.suffix_cons_iff.mp ht with rfl | ht'
    · simp [listContains, hp]
    · simp only [listContains, Bool.or_eq_true]
      exact Or.inr (ih ⟨t, hp, ht'⟩)

theorem scanHeadNl_contains {head sub pre : List Char} (hpre : pre <+: head) :
    ∀ {s : List Char}, scanHeadNl head sub s = true → listContains pre s = true := by
  intro s
  induction s with
  | nil =>
    intro h
    simp only [scanHeadNl, Bool.and_eq_true] at h
    have hh : head = [] := by
      have := h.1
      rw [List.isPrefixOf_iff_prefix] at this
      exact List.prefix_nil.mp this
    subst hh
    have : pre = [] := List.prefix_nil.mp hpre
    subst this
    rfl
  | cons c r ih =>
    intro h
    simp only [scanHeadNl, Bool.or_eq_true, Bool.and_eq_true] at h
    rcases h with ⟨h1, -⟩ | h2
    · apply listContains_of_prefix_at
      refine ⟨c :: r, ?_, List.suffix_refl _⟩
      rw [List.isPrefixOf_iff_prefix] at h1 ⊢
      exact hpre.trans h1
    · simp only [listContains, Bool.or_eq_true]
      exact Or.inr (ih h2)

/-- A factory match textually implies the direct containment test. -/
theorem factory_implies_contains {m content : String}
    (h : factoryMatches m content = true) :
    containsS content ("export const " ++ m) = true := by
  unfold factoryMatches at h
  unfold containsS
  refine scanHeadNl_contains ?_ h
  have : ("export const " ++ m ++ " = ").toList = ("export const " ++ m).toList ++ " = ".toList := by
    rw [toList_app]
  rw [this]
  exact List.prefix_append ..

/-- Each recognized method contributes one entry exactly when the file
contains its `export const` text. -/
theorem method_entry_length (m content : String) :
    (if factoryMatches m content then [(m, true)]
      else if containsS content ("export const " ++ m) then [(m, false)]
      else ([] : List (String × Bool))).length =
      if containsS content ("export const " ++ m) then 1 else 0 := by
  by_cases hf : factoryMatches m content = true
  · rw [if_pos hf, if_pos (factory_implies_contains hf)]
    rfl
  · rw [if_neg hf]
    by_cases hc : containsS content ("export const " ++ m) = true
    · rw [if_pos hc, if_pos hc]
      rfl
    · rw [if_neg hc, if_neg hc]
      rfl

theorem flatMap_length_filter (content : String) :
    ∀ L : List String,
      (L.flatMap fun m =>
        if factoryMatches m content then [(m, true)]
        else if containsS content ("export const " ++ m) then [(m, false)]
        else []).length =
      (L.filter fun m => containsS content ("export const " ++ m)).length
  | [] => rfl
  | m :: L => by
    rw [List.flatMap_cons, List.length_append, flatMap_length_filter content L,
      method_entry_length m content, List.filter_cons]
    by_cases hc : containsS content ("export const " ++ m) = true
    · rw [if_pos hc, if_pos hc]
      simp only [List.length_singleton, List.length_cons]
      omega
    · rw [if_neg hc, if_neg (by simpa using hc)]
      simp

theorem flatMap_fst_sublist (content : String) :
    ∀ L : List String,
      List.Sublist
        ((L.flatMap fun m =>
          if factoryMatches m content then [(m, true)]
          else if containsS content ("export const " ++ m) then [(m, false)]
          else []).map Prod.fst) L
  | [] => List.Sublist.refl _
  | m :: L => by
    rw [List.flatMap_cons, List.map_append, show m :: L = [m] ++ L from rfl]
    refine List.Sublist.append ?_ (flatMap_fst_sublist content L)
    by_cases hf : factoryMatches m content = true
    · rw [if_pos hf]
      simp
    · rw [if_neg hf]
      by_cases hc : containsS content ("export const " ++ m) = true
      · rw [if_pos hc]
        simp
      · rw [if_neg hc]
        simp

/-- C6 (confirmed): for every candidate file the number of produced routes
equals the number of recognized methods whose `export const` text the file
contains (at most one per method, hence at most 5, with pairwise distinct
methods), together with exactly one import when that number is positive;
zero recognized exports produce neither an import nor a route. -/
theorem c6_route_counts :
    (∀ content : String,
        (getExportedMethods content).length =
          (methodsList.filter fun m => containsS content ("export const " ++ m)).length) ∧
    (∀ content : String, (getExportedMethods content).length ≤ 5) ∧
    (∀ content : String, ((getExportedMethods content).map Prod.fst).Nodup) ∧
    (∀ (dirT out : String) (deno : Bool) (basePath name content : String),
        candidateName name = true →
        (fileOutputs dirT out deno basePath name content).2.length =
            (getExportedMethods content).length ∧
          (fileOutputs dirT out deno basePath name content).1.length =
            (if (getExportedMethods content).isEmpty then 0 else 1)) := by
  refine ⟨?_, ?_, ?_, ?_⟩
  · intro content
    exact flatMap_length_filter content methodsList
  · intro content
    have hsub := flatMap_fst_sublist content methodsList
    have := hsub.length_le
    rw [List.length_map] at this
    exact this
  · intro content
    exact (flatMap_fst_sublist content methodsList).nodup (by decide)
  · intro dirT out deno basePath name content hcand
    unfold fileOutputs
    rw [if_pos hcand]
    by_cases he : (getExportedMethods content).isEmpty = true
    · rw [if_pos he, if_pos he]
      have : getExportedMethods content = [] := List.isEmpty_iff.mp he
      rw [this]
      exact ⟨rfl, rfl⟩
    · rw [if_neg he, if_neg he]
      exact ⟨List.length_map .., rfl⟩

/-- Witness for `c6_route_counts` at a concrete candidate file. -/
theorem c6_route_counts_witness :
    (fileOutputs "routes" "router.ts" false "" "api.ts"
        "export const onRequestGet = h").2.length =
      (getExportedMethods "export const onRequestGet = h").length :=
  (c6_route_counts.2.2.2 "routes" "router.ts" false "" "api.ts"
    "export const onRequestGet = h" (by decide)).1

/-! ### Determinism and stable tie-breaking (claim C7) -/

theorem filter_insSorted_pos {cmp : α → α → Int} {q : α → Bool} {x : α}
    (hx : q x = true) : ∀ {s : List α}, (∀ z ∈ s, q z = true → cmp x z ≤ 0) →
      (insSorted cmp x s).filter q = x :: s.filter q
  | [], _ => by simp [insSorted, hx]
  | y :: ys, h => by
    by_cases hc : cmp x y ≤ 0
    · rw [insSorted, if_pos hc]
      simp [List.filter_cons, hx]
    · rw [insSorted, if_neg hc]
      have hqy : q y = false := by
        cases hq : q y
        · rfl
        · exact absurd (h y (by simp) hq) hc
      rw [List.filter_cons, if_neg (by simp [hqy]), List.filter_cons, if_neg (by simp [hqy])]
      exact filter_insSorted_pos hx fun z hz hqz => h z (by simp [hz]) hqz

theorem filter_insSorted_neg {cmp : α → α → Int} {q : α → Bool} {x : α}
    (hx : q x = false) : ∀ s : List α, (insSorted cmp x s).filter q = s.filter q
  | [] => by simp [insSorted, hx]
  | y :: ys => by
    by_cases hc : cmp x y ≤ 0
    · rw [insSorted, if_pos hc, List.filter_cons, if_neg (by simp [hx])]
    · rw [insSorted, if_neg hc, List.filter_cons, List.filter_cons]
      rw [filter_insSorted_neg hx ys]

/-- Stability of the modelled sort: the subsequence of elements of any
tie-class (all pairwise ranked ≤ 0 by the comparator) is preserved from
the input order. -/
theorem filter_sortByCmp {cmp : α → α → Int} {q : α → Bool}
    (hq : ∀ a b : α, q a = true → q b = true → cmp a b ≤ 0) :
    ∀ l : List α, (sortByCmp cmp l).filter q = l.filter q
  | [] => rfl
  | x :: l => by
    show (insSorted cmp x (sortByCmp cmp l)).filter q = _
    by_cases hx : q x = true
    · rw [filter_insSorted_pos hx fun z _ hqz => hq x z hx hqz,
        filter_sortByCmp hq l, List.filter_cons, if_pos (by simp [hx])]
    · rw [filter_insSorted_neg (Bool.not_eq_true _ ▸ hx : q x = false),
        filter_sortByCmp hq l, List.filter_cons, if_neg (by simp_all)]

theorem sortPaths_anti (a b : String) : sortPaths b a = - sortPaths a b :=
  cmpParts_anti _ _

theorem sortPaths_trans_zero (a b c : String) (h1 : sortPaths a b = 0)
    (h2 : sortPaths b c = 0) : sortPaths a c = 0 :=
  cmpParts_trans_zero _ _ _ h1 h2

/-- The golden input of the determinism claim: one root index file with a
GET and a POST export, giving two equal-ranked routes. -/
def c7Tree : List FSTree :=
  [FSTree.file "index.ts"
    ("export const onRequestGet = h\nexport const onRequestPost = h")]

/-- C7 (confirmed): generation is a pure function of the scanned tree, the
directories and the flag — equal inputs give byte-identical output text;
equal-ranked routes keep discovery order (the modelled stable sort
preserves every tie-class subsequence); on the golden tree the full output
text, ties included, is reproduced exactly. -/
theorem c7_determinism :
    (∀ (d1 d2 o1 o2 : String) (f1 f2 : Bool) (t1 t2 : List FSTree),
        d1 = d2 → o1 = o2 → f1 = f2 → t1 = t2 →
        generateOutput d1 o1 f1 t1 = generateOutput d2 o2 f2 t2) ∧
    (∀ (rs : List Route) (p : String),
        (sortByCmp routeCmp rs).filter (fun r => decide (sortPaths r.path p = 0)) =
          rs.filter (fun r => decide (sortPaths r.path p = 0))) ∧
    generateOutput "routes" "router.ts" false c7Tree =
      "\nimport \x7b Hono, Env \x7d from " ++ sq ++ "hono" ++ sq ++ ";\n\n" ++
        "import * as index from " ++ sq ++ "./routes" ++ sq ++ ";\n\n" ++
        "export const loadRoutes = <T extends Env>(app: Hono<T>) => \x7b\n\t" ++
        "app.get(" ++ sq ++ "/" ++ sq ++ ", index.onRequestGet);\n\t" ++
        "app.post(" ++ sq ++ "/" ++ sq ++ ", index.onRequestPost);\n\x7d;" := by
  refine ⟨?_, ?_, ?_⟩
  · intro d1 d2 o1 o2 f1 f2 t1 t2 hd ho hf ht
    rw [hd, ho, hf, ht]
  · intro rs p
    refine filter_sortByCmp ?_ rs
    intro a b ha hb
    rw [decide_eq_true_eq] at ha hb
    have hpb : sortPaths p b.path = 0 := by
      rw [sortPaths_anti, hb]
      rfl
    have : sortPaths a.path b.path = 0 :=
      sortPaths_trans_zero a.path p b.path ha hpb
    unfold routeCmp
    omega
  · set_option maxRecDepth 10000 in decide

/-- Witness for `c7_determinism`: two runs on the same concrete input agree. -/
theorem c7_determinism_witness :
    generateOutput "routes" "router.ts" false c7Tree =
      generateOutput "routes" "router.ts" false c7Tree :=
  c7_determinism.1 "routes" "routes" "router.ts" "router.ts" false false c7Tree c7Tree
    rfl rfl rfl rfl

/-! ### Direct-export detection is substring containment (claim C8) -/

/-- C8 (confirmed): the direct check is `includes('export const <method>')`,
so any file text containing that substring — in particular an identifier
that merely extends the method name, like `onRequestGetAll` — is
classified as exporting the method. -/
theorem c8_prefix_direct :
    (∀ s : String, containsS s "export const onRequestGet" = true →
        ∃ b : Bool, ("onRequestGet", b) ∈ getExportedMethods s) ∧
    getExportedMethods "export const onRequestGetAll = handler" =
      [("onRequestGet", false)] := by
  constructor
  · intro s h
    have happ : ("export const " ++ "onRequestGet") = "export const onRequestGet" := rfl
    by_cases hf : factoryMatches "onRequestGet" s = true
    · refine ⟨true, List.mem_flatMap.mpr ⟨"onRequestGet", by decide, ?_⟩⟩
      rw [if_pos hf]
      simp
    · refine ⟨false, List.mem_flatMap.mpr ⟨"onRequestGet", by decide, ?_⟩⟩
      rw [if_neg hf, if_pos (by rw [happ]; exact h)]
      simp
  · decide

/-- Witness for `c8_prefix_direct` at the extended-identifier file. -/
theorem c8_prefix_direct_witness :
    ∃ b : Bool, ("onRequestGet", b) ∈
      getExportedMethods "export const onRequestGetAll = handler" :=
  c8_prefix_direct.1 "export const onRequestGetAll = handler" (by decide)

/-! ### Factory detection is same-line (claim C9) -/

theorem scanNoNl_iff (sub : List Char) : ∀ s : List Char,
    scanNoNl sub s = true ↔
      ∃ v w : List Char, s = v ++ sub ++ w ∧ ∀ c ∈ v, jsDotChar c = true := by
  intro s
  induction s with
  | nil =>
    constructor
    · intro h
      have hs : sub = [] := by
        have := List.isPrefixOf_iff_prefix.mp h
        exact List.prefix_nil.mp this
      exact ⟨[], [], by simp [hs], by simp⟩
    · rintro ⟨v, w, hvw, -⟩
      have hv : v = [] := by
        cases v with
        | nil => rfl
        | cons a b => exact absurd hvw.symm (by simp)
      have hw : sub ++ w = [] := by simpa [hv] using hvw.symm
      have hs : sub = [] := by
        cases sub with
        | nil => rfl
        | cons a b => exact absurd hw (by simp)
      show sub.isPrefixOf [] = true
      rw [hs]
      rfl
  | cons c r ih =>
    constructor
    · intro h
      rw [scanNoNl] at h
      by_cases hpre : sub.isPrefixOf (c :: r) = true
      · obtain ⟨w, hw⟩ := List.isPrefixOf_iff_prefix.mp hpre
        exact ⟨[], w, by simp [← hw], by simp⟩
      · rw [if_neg hpre] at h
        by_cases hdot : jsDotChar c = true
        · rw [if_pos hdot] at h
          obtain ⟨v, w, hvw, hv⟩ := ih.mp h
          refine ⟨c :: v, w, by simp [hvw], ?_⟩
          intro d hd
          rcases List.mem_cons.mp hd with rfl | hd
          · exact hdot
          · exact hv d hd
        · rw [if_neg hdot] at h
          exact Bool.noConfusion h
    · rintro ⟨v, w, hvw, hv⟩
      cases v with
      | nil =>
        simp only [List.nil_append] at hvw
        rw [scanNoNl, if_pos ?_]
        rw [List.isPrefixOf_iff_prefix, hvw]
        exact List.prefix_append ..
      | cons a v' =>
        have hac : a = c := by
          simpa using congrArg (List.headD · ' ') hvw.symm
        subst hac
        have hr : r = v' ++ sub ++ w := by
          simpa using congrArg List.tail hvw
        rw [scanNoNl]
        by_cases hpre : sub.isPrefixOf (a :: r) = true
        · rw [if_pos hpre]
        · rw [if_neg hpre, if_pos (hv a (by simp))]
          exact ih.mpr ⟨v', w, hr, fun d hd => hv d (by simp [hd])⟩

theorem scanHeadNl_iff (head sub : List Char) : ∀ s : List Char,
    scanHeadNl head sub s = true ↔
      ∃ u v w : List Char, s = u ++ head ++ v ++ sub ++ w ∧ ∀ c ∈ v, jsDotChar c = true := by
  intro s
  induction s with
  | nil =>
    constructor
    · intro h
      rw [scanHeadNl, Bool.and_eq_true] at h
      have hh : head = [] := by
        have := List.isPrefixOf_iff_prefix.mp h.1
        exact List.prefix_nil.mp this
      have hsn : scanNoNl sub [] = true := h.2
      obtain ⟨v, w, hvw, hv⟩ := (scanNoNl_iff sub []).mp hsn
      exact ⟨[], v, w, by simpa [hh] using hvw, hv⟩
    · rintro ⟨u, v, w, hvw, hv⟩
      have hu : u = [] := by
        cases u with
        | nil => rfl
        | cons a b => exact absurd hvw.symm (by simp)
      have hh : head = [] := by
        cases head with
        | nil => rfl
        | cons a b =>
          subst hu
          exact absurd hvw.symm (by simp)
      rw [scanHeadNl, Bool.and_eq_true]
      subst hu
      subst hh
      simp only [List.nil_append] at hvw
      constructor
      · rfl
      · exact (scanNoNl_iff sub []).mpr ⟨v, w, by simpa using hvw, hv⟩
  | cons c r ih =>
    constructor
    · intro h
      rw [scanHeadNl, Bool.or_eq_true, Bool.and_eq_true] at h
      rcases h with ⟨h1, h2⟩ | h2
      · obtain ⟨t, ht⟩ := List.isPrefixOf_iff_prefix.mp h1
        have hdrop : (c :: r).drop head.length = t := by
          rw [← ht]
          exact List.drop_left ..
        rw [hdrop] at h2
        obtain ⟨v, w, hvw, hv⟩ := (scanNoNl_iff sub t).mp h2
        exact ⟨[], v, w, by rw [← ht, hvw]; simp, hv⟩
      · obtain ⟨u, v, w, hvw, hv⟩ := ih.mp h2
        exact ⟨c :: u, v, w, by simp [hvw], hv⟩
    · rintro ⟨u, v, w, hvw, hv⟩
      cases u with
      | nil =>
        simp only [List.nil_append] at hvw
        rw [scanHeadNl, Bool.or_eq_true, Bool.and_eq_true]
        left
        constructor
        · rw [List.isPrefixOf_iff_prefix, hvw]
          rw [show head ++ v ++ sub ++ w = head ++ (v ++ sub ++ w) from by simp]
          exact List.prefix_append ..
        · have hdrop : (c :: r).drop head.length = v ++ sub ++ w := by
            rw [hvw, show head ++ v ++ sub ++ w = head ++ (v ++ sub ++ w) from by simp]
            exact List.drop_left ..
          rw [hdrop]
          exact (scanNoNl_iff sub _).mpr ⟨v, w, rfl, hv⟩
      | cons a u' =>
        have hac : a = c := by
          simpa using congrArg (List.headD · ' ') hvw.symm
        subst hac
        have hr : r = u' ++ head ++ v ++ sub ++ w := by
          simpa using congrArg List.tail hvw
        rw [scanHeadNl, Bool.or_eq_true]
        exact Or.inr (ih.mpr ⟨u', v, w, hr, hv⟩)

/-- C9 (confirmed): the factory regex matches exactly when `createHandlers`
appears after `export const <method> = ` with only `.`-matching characters
(no line terminator) in between; a file whose helper name sits on another
line, before or after the export, is classified direct, not factory. -/
theorem c9_factory_same_line :
    (∀ m content : String, factoryMatches m content = true ↔
        ∃ u v w : List Char,
          content.toList = u ++ ("export const " ++ m ++ " = ").toList ++ v ++
            "createHandlers".toList ++ w ∧ ∀ c ∈ v, jsDotChar c = true) ∧
    getExportedMethods ("export const onRequestGet = f()\nconst g = createHandlers()") =
      [("onRequestGet", false)] ∧
    getExportedMethods ("const mk = createHandlers\nexport const onRequestGet = mk") =
      [("onRequestGet", false)] := by
  refine ⟨?_, by decide, by decide⟩
  intro m content
  unfold factoryMatches
  exact scanHeadNl_iff _ _ content.toList

/-- Witness for `c9_factory_same_line` at a concrete factory file. -/
theorem c9_factory_same_line_witness :
    ∃ u v w : List Char,
      ("export const onRequestGet = createHandlers(a)" : String).toList =
        u ++ ("export const " ++ "onRequestGet" ++ " = ").toList ++ v ++
          "createHandlers".toList ++ w ∧ ∀ c ∈ v, jsDotChar c = true :=
  (c9_factory_same_line.1 "onRequestGet" "export const onRequestGet = createHandlers(a)").mp
    (by decide)

/-! ### The capitalization filter and caseless first characters (claim C10) -/

/-- C10 (confirmed): whatever case mappings `toUpperCase`/`toLowerCase`
provide, the filter excludes a name exactly when the first character is its
own uppercase form and differs from its lowercase form; so a first
character with no case distinction (lowercase form equal to itself) is
never excluded, and bracket-named files such as `[id].ts` remain
candidates. -/
theorem c10_capitalization :
    (∀ (up low : Char → String) (c : Char) (s : List Char),
        low c = String.singleton c → isCapitalizedWith up low (c :: s) = false) ∧
    (∀ (up low : Char → String) (c : Char) (s : List Char),
        isCapitalizedWith up low (c :: s) = true ↔
          (up c = String.singleton c ∧ low c ≠ String.singleton c)) ∧
    isCapitalized "[id].ts" = false ∧
    candidateName "[id].ts" = true ∧
    isCapitalized "_helper.ts" = false ∧
    isCapitalized "1file.ts" = false := by
  refine ⟨?_, ?_, by decide, by decide, by decide, by decide⟩
  · intro up low c s h
    simp [isCapitalizedWith, h]
  · intro up low c s
    simp [isCapitalizedWith]

/-- Witness for `c10_capitalization` with the ASCII case mappings of the
pipeline's `isCapitalized` at a bracket-named file. -/
theorem c10_capitalization_witness :
    isCapitalizedWith (fun c => String.singleton c.toUpper)
      (fun c => String.singleton c.toLower) ('[' :: "id].ts".toList) = false :=
  c10_capitalization.1 (fun c => String.singleton c.toUpper)
    (fun c => String.singleton c.toLower) '[' ("id].ts".toList) (by decide)

end HonoRouter
